import Mathlib

/-!
Verification of the makefilehub task-execution core against its
specification.  The Rust sources under `src/runner` (detection, the three
backend runners), `src/executor/runner.rs` (subprocess execution, output
truncation) and `src/error.rs` (error taxonomy, `suggest_fix`) are embedded
shallowly below: pure text processing becomes functions on `List Char`,
byte-level string handling (Rust `String` slicing in `read_and_truncate`)
becomes functions on `List Nat` (UTF-8 bytes), and the environment-dependent
parts of an execution (spawn success, process exit status, captured output,
timeout-race expiry) become explicit scenario values that the embedded
control flow consumes exactly as the Rust code consumes the corresponding
runtime results.
-/

namespace Makefilehub

/-! ## Character classes and text utilities shared by the regex embeddings -/

/-- ASCII whitespace: the characters of the regex class `\s` (the inputs the
runners parse are ASCII; the Unicode-only whitespace of Rust `char::is_whitespace`
is not modelled). -/
def isWS (c : Char) : Bool :=
  c = ' ' || c = '\t' || c = '\n' || c = '\r' || c = '\x0b' || c = '\x0c'

/-- Rust `str::trim` on a character list (ASCII whitespace). -/
def trimChars (cs : List Char) : List Char :=
  ((cs.dropWhile isWS).reverse.dropWhile isWS).reverse

/-- Rust `str::contains(needle)`: `needle` occurs as a contiguous run in `hay`. -/
def containsSub [BEq α] : List α → List α → Bool
  | [], needle => needle.isEmpty
  | hay@(_ :: t), needle => needle.isPrefixOf hay || containsSub t needle

/-- `str::contains` lifted to `String`. -/
def strContains (hay needle : String) : Bool :=
  containsSub hay.toList needle.toList

/-- Number of (possibly overlapping) positions at which `needle` occurs. -/
def countOccur [BEq α] (needle : List α) : List α → Nat
  | [] => if needle.isEmpty then 1 else 0
  | hay@(_ :: t) => (if needle.isPrefixOf hay then 1 else 0) + countOccur needle t

/-- `a-z` or `A-Z`. -/
def isAsciiAlpha (c : Char) : Bool :=
  ('a' ≤ c && c ≤ 'z') || ('A' ≤ c && c ≤ 'Z')

/-- The regex class `[a-zA-Z_]` opening every identifier the runners capture. -/
def isNameStart (c : Char) : Bool :=
  isAsciiAlpha c || c = '_'

/-- The regex class `[a-zA-Z0-9_-]` continuing such an identifier. -/
def isNameChar (c : Char) : Bool :=
  isNameStart c || ('0' ≤ c && c ≤ '9') || c = '-'

/-- Greedy match of the regex fragment `[a-zA-Z_][a-zA-Z0-9_-]*` at the head of
the input; on success returns the captured characters and the rest.  The
continuation class is disjoint from whitespace, `:`, `#` and `)`, so the greedy
match needs no backtracking against the fragments that follow it in the
runners' patterns. -/
def takeName : List Char → Option (List Char × List Char)
  | [] => none
  | c :: cs =>
    if isNameStart c then some (c :: cs.takeWhile isNameChar, cs.dropWhile isNameChar)
    else none

/-- `Vec::join(" ")` on the parts of a rendered command line. -/
def joinParts : List String → String
  | [] => ""
  | [p] => p
  | p :: rest => p ++ " " ++ joinParts rest

/-- Rust `str::lines`: split on `'\n'`, drop a final empty segment, strip one
trailing `'\r'` from each line. -/
def rustLines (s : String) : List String :=
  let parts := s.toList.splitOn '\n'
  let parts := if parts.getLast? = some [] then parts.dropLast else parts
  parts.map fun cs => String.mk (if cs.getLast? = some '\r' then cs.dropLast else cs)

/-! ## Shared task model (`src/runner/traits.rs`) and errors (`src/error.rs`) -/

/-- `TaskArg` of `traits.rs`. -/
structure TaskArg where
  name : String
  required : Bool
  default : Option String
  description : Option String
deriving Repr, DecidableEq

/-- `TaskInfo` of `traits.rs`. -/
structure TaskInfo where
  name : String
  description : Option String
  arguments : List TaskArg
deriving Repr, DecidableEq

/-- `TaskError` of `error.rs` (the `Io` payload is kept as its message). -/
inductive TaskError where
  | projectNotFound (path : String) (suggestion : Option String)
  | noRunnerDetected (path : String) (available : List String)
  | taskNotFound (task : String) (available : List String) (suggestion : Option String)
  | commandFailed (command : String) (exit_code : Option Int) (stderr : String)
      (suggestion : Option String)
  | spawnFailed (command : String) (error : String)
  | timeout (command : String) (timeout_secs : Nat)
  | config (msg : String)
  | serviceNotFound (name : String)
  | securityViolation (message : String) (path : String)
  | io (msg : String)
deriving Repr, DecidableEq

/-- `RunResult` of `traits.rs`. -/
structure RunResult where
  success : Bool
  exit_code : Option Int
  stdout : String
  stderr : String
  command : String
  duration_ms : Nat
deriving Repr, DecidableEq

/-- `RunResult::success`. -/
def RunResult.successResult (command stdout : String) (duration_ms : Nat) : RunResult :=
  ⟨true, some 0, stdout, "", command, duration_ms⟩

/-- `RunResult::failed`. -/
def RunResult.failedResult (command : String) (exit_code : Option Int)
    (stdout stderr : String) (duration_ms : Nat) : RunResult :=
  ⟨false, exit_code, stdout, stderr, command, duration_ms⟩

/-- `RunOptions` of `traits.rs`, restricted to the fields the runners read
while rendering and classifying a command.  `args` and `env` are `HashMap`s in
Rust; they are modelled as association lists in their iteration order. -/
structure RunOptions where
  args : List (String × String)
  positional_args : List String
  env : List (String × String)
deriving Repr, DecidableEq

/-- `suggest_fix` of `error.rs`.  The nested Rust `if`s that fall through when
an outer guard matches but no inner one does are flattened into one chain of
conjunction guards. -/
def suggest_fix (command stderr : String) : Option String :=
  if (strContains stderr "docker" || strContains stderr "Docker") &&
      (strContains stderr "not running" || strContains stderr "Cannot connect") then
    some "Docker daemon is not running. Start Docker Desktop or the Docker service."
  else if (strContains stderr "docker" || strContains stderr "Docker") &&
      strContains stderr "No such container" then
    some "Container not found. Try running 'up' first to start the services."
  else if (strContains stderr "docker" || strContains stderr "Docker") &&
      strContains stderr "port is already allocated" then
    some "Port conflict. Stop the conflicting service or use a different port."
  else if strContains stderr "Permission denied" then
    some "Permission denied. Check file permissions or run with appropriate access."
  else if strContains stderr "command not found" || strContains stderr "not found" then
    if strContains command "make" then
      some "'make' command not found. Install build-essential or make."
    else if strContains command "just" then
      some "'just' command not found. Install just: cargo install just"
    else
      some "Required command not found. Check PATH and dependencies."
  else if strContains stderr "No such file" then
    if strContains command "run.sh" then
      some "run.sh not found. Verify the working directory is correct."
    else
      some "File not found. Check the project path and file existence."
  else if strContains stderr "No rule to make target" then
    some "Target not found in Makefile. Run 'list_tasks' to see available targets."
  else if strContains stderr "Justfile does not contain recipe" then
    some "Recipe not found in justfile. Run 'list_tasks' to see available recipes."
  else
    none

/-! ## Executor (`src/executor/runner.rs`) -/

/-- `TRUNCATION_MARKER` of `executor/runner.rs`. -/
def TRUNCATION_MARKER : String := "\n... [output truncated] ...\n"

/-- The marker as UTF-8 bytes (it is ASCII, so code points are bytes). -/
def TRUNCATION_MARKER_BYTES : List Nat := TRUNCATION_MARKER.toList.map Char.toNat

/-- A UTF-8 continuation byte, `0x80 ..= 0xBF`. -/
def isContinuation (b : Nat) : Bool := 128 ≤ b && b < 192

/-- Rust `str::is_char_boundary` on a byte string, for indices `i ≤ length`:
true at 0, at the length, and at any byte that does not continue a multi-byte
character.  Slicing a Rust `&str` at a non-boundary index panics. -/
def is_char_boundary (s : List Nat) (i : Nat) : Bool :=
  i == 0 ||
    (match s.get? i with
     | some b => !isContinuation b
     | none => i == s.length)

/-- The loop of `read_and_truncate`: `lines` are the results of successive
`read_line` calls (each line carries its bytes, including a trailing newline
when the stream had one), `output` the accumulator.  `none` models the panic
of `&line[..remaining.min(line.len())]` when that index falls inside a
multi-byte character. -/
def read_and_truncate_go (max_size : Nat) : List (List Nat) → List Nat → Option (List Nat × Bool)
  | [], output => some (output, false)
  | line :: rest, output =>
    if output.length + line.length > max_size then
      let remaining := max_size - output.length
      if remaining > 0 then
        let k := min remaining line.length
        if is_char_boundary line k then
          some (output ++ line.take k ++ TRUNCATION_MARKER_BYTES, true)
        else
          none
      else
        some (output ++ TRUNCATION_MARKER_BYTES, true)
    else
      read_and_truncate_go max_size rest (output ++ line)

/-- `read_and_truncate` of `executor/runner.rs` over the stream's lines. -/
def read_and_truncate (lines : List (List Nat)) (max_size : Nat) : Option (List Nat × Bool) :=
  read_and_truncate_go max_size lines []

/-- `ExecOptions`, restricted to the fields `exec_command` branches on.  The
timeout is kept in whole seconds, as `Timeout` reports it. -/
structure ExecOptions where
  timeoutSecs : Option Nat
  max_output_size : Nat
deriving Repr, DecidableEq

/-- `WaitResult` of `executor/runner.rs` (what `wait_for_output` produced). -/
structure WaitResult where
  exit_code : Option Int
  stdout : String
  stderr : String
  stdout_truncated : Bool
  stderr_truncated : Bool
deriving Repr, DecidableEq

/-- `ExecResult` of `executor/runner.rs`. -/
structure ExecResult where
  success : Bool
  exit_code : Option Int
  stdout : String
  stdout_truncated : Bool
  stderr : String
  stderr_truncated : Bool
  duration_ms : Nat
  timed_out : Bool
deriving Repr, DecidableEq

deriving instance DecidableEq for Except

/-- The environment-dependent outcome of one execution, consumed by
`exec_command` exactly where the Rust code awaits the corresponding runtime
results: whether `spawn` failed (with its error message), whether the
configured timeout race expired before the spawn-wait-drain future finished,
and what `wait_for_output` returned when it did finish. -/
structure ExecScenario where
  spawnError : Option String
  expired : Bool
  waitOutcome : Except TaskError WaitResult
deriving Repr, DecidableEq

/-- `cmd.kill_on_drop(true)`: the flag `exec_command` sets on every child. -/
def execKillOnDrop : Bool := true

/-- What happens to the child process when the execution future completes or
is dropped: tokio kills a still-running child on drop exactly when
`kill_on_drop` was set. -/
inductive ChildFate where
  | exited
  | killed
  | orphaned
deriving Repr, DecidableEq

/-- Tokio's drop semantics for a spawned child. -/
def childFateAfter (killOnDrop : Bool) (finished : Bool) : ChildFate :=
  if finished then .exited else if killOnDrop then .killed else .orphaned

/-- The `Ok` result `exec_command` assembles from a completed wait
(`executor/runner.rs` lines 186-197): `success` is `exit_code == Some(0)` and
`timed_out` is the literal `false`. -/
def mkExecResult (w : WaitResult) (duration_ms : Nat) : ExecResult :=
  { success := w.exit_code == some 0
    exit_code := w.exit_code
    stdout := w.stdout
    stdout_truncated := w.stdout_truncated
    stderr := w.stderr
    stderr_truncated := w.stderr_truncated
    duration_ms := duration_ms
    timed_out := false }

/-- `exec_command` of `executor/runner.rs`.  `command_str` is
`format!("{} {}", program, args.join(" "))`; a spawn failure returns
`SpawnFailed`; with a timeout configured, expiry of the race returns
`Timeout` (discarding whatever `waitOutcome` captured); otherwise the wait's
error propagates or its result becomes an `ExecResult`. -/
def exec_command (program : String) (args : List String) (options : ExecOptions)
    (sc : ExecScenario) (duration_ms : Nat) : Except TaskError ExecResult :=
  let command_str := program ++ " " ++ joinParts args
  match sc.spawnError with
  | some e => .error (.spawnFailed command_str e)
  | none =>
    match options.timeoutSecs with
    | some t =>
      if sc.expired then
        .error (.timeout command_str t)
      else
        match sc.waitOutcome with
        | .error e => .error e
        | .ok w => .ok (mkExecResult w duration_ms)
    | none =>
      match sc.waitOutcome with
      | .error e => .error e
      | .ok w => .ok (mkExecResult w duration_ms)

/-! ## Command rendering (`build_command` of the three runners) -/

/-- `MakefileRunner::build_command`: `<make> <task> [KEY=VALUE]... [-- POS...]`. -/
def MakefileRunner.build_command (make_command task : String) (options : RunOptions) : String :=
  joinParts <|
    [make_command, task]
      ++ options.args.map (fun kv => kv.1 ++ "=" ++ kv.2)
      ++ (if options.positional_args.isEmpty then [] else "--" :: options.positional_args)

/-- `JustfileRunner::build_command`: `<just> <task> [KEY=VALUE]... [POS...]`. -/
def JustfileRunner.build_command (just_command task : String) (options : RunOptions) : String :=
  joinParts <|
    [just_command, task]
      ++ options.args.map (fun kv => kv.1 ++ "=" ++ kv.2)
      ++ options.positional_args

/-- `ScriptRunner::build_command`: `<script> <task> [POS...] [--KEY[=VALUE]]...`
(an empty-valued named argument renders as a bare `--KEY` flag). -/
def ScriptRunner.build_command (script_name task : String) (options : RunOptions) : String :=
  joinParts <|
    [script_name, task]
      ++ options.positional_args
      ++ options.args.map (fun kv =>
           if kv.2.isEmpty then "--" ++ kv.1 else "--" ++ kv.1 ++ "=" ++ kv.2)

/-! ## Execution-failure classification (`execute_make` / `execute_just` /
`execute_script`, the part after `cmd.output()` succeeded) -/

/-- The exit status and captured output of a completed `cmd.output()` call. -/
structure ProcOutput where
  statusSuccess : Bool
  code : Option Int
  stdout : String
  stderr : String
deriving Repr, DecidableEq

/-- `self.list_tasks(dir).unwrap_or_default()`. -/
def unwrapOrDefault (r : Except TaskError (List TaskInfo)) : List TaskInfo :=
  match r with
  | .ok ts => ts
  | .error _ => []

/-- The stderr phrasing by which the Make runner recognises a missing target. -/
def makeNotFoundPhrase (stderr : String) : Bool :=
  strContains stderr "No rule to make target"

/-- The stderr phrasings by which the Just runner recognises a missing recipe. -/
def justNotFoundPhrase (stderr : String) : Bool :=
  strContains stderr "Justfile does not contain recipe" ||
    strContains stderr "Just was unable to find" ||
    strContains stderr "Unknown recipe"

/-- The stderr phrasings by which the Script runner recognises a missing command. -/
def scriptNotFoundPhrase (stderr : String) : Bool :=
  strContains stderr "Unknown command" ||
    strContains stderr "not a valid command" ||
    strContains stderr "Invalid command" ||
    strContains stderr "unrecognized command"

/-- Tail of `MakefileRunner::execute_make` after `cmd.output()` succeeded:
`out` is the process outcome and `listTasksResult` the result the re-run of
`self.list_tasks(dir)` produces at that moment. -/
def MakefileRunner.executeOutcome (make_command task : String) (options : RunOptions)
    (out : ProcOutput) (duration_ms : Nat)
    (listTasksResult : Except TaskError (List TaskInfo)) : Except TaskError RunResult :=
  let command_str := MakefileRunner.build_command make_command task options
  if out.statusSuccess then
    .ok (RunResult.successResult command_str out.stdout duration_ms)
  else if makeNotFoundPhrase out.stderr then
    .error (.taskNotFound task ((unwrapOrDefault listTasksResult).map TaskInfo.name)
      (suggest_fix command_str out.stderr))
  else
    .ok (RunResult.failedResult command_str out.code out.stdout out.stderr duration_ms)

/-- Tail of `JustfileRunner::execute_just` after `cmd.output()` succeeded. -/
def JustfileRunner.executeOutcome (just_command task : String) (options : RunOptions)
    (out : ProcOutput) (duration_ms : Nat)
    (listTasksResult : Except TaskError (List TaskInfo)) : Except TaskError RunResult :=
  let command_str := JustfileRunner.build_command just_command task options
  if out.statusSuccess then
    .ok (RunResult.successResult command_str out.stdout duration_ms)
  else if justNotFoundPhrase out.stderr then
    .error (.taskNotFound task ((unwrapOrDefault listTasksResult).map TaskInfo.name)
      (suggest_fix command_str out.stderr))
  else
    .ok (RunResult.failedResult command_str out.code out.stdout out.stderr duration_ms)

/-- Tail of `ScriptRunner::execute_script` after `cmd.output()` succeeded. -/
def ScriptRunner.executeOutcome (script_name task : String) (options : RunOptions)
    (out : ProcOutput) (duration_ms : Nat)
    (listTasksResult : Except TaskError (List TaskInfo)) : Except TaskError RunResult :=
  let command_str := ScriptRunner.build_command script_name task options
  if out.statusSuccess then
    .ok (RunResult.successResult command_str out.stdout duration_ms)
  else if scriptNotFoundPhrase out.stderr then
    .error (.taskNotFound task ((unwrapOrDefault listTasksResult).map TaskInfo.name)
      (suggest_fix command_str out.stderr))
  else
    .ok (RunResult.failedResult command_str out.code out.stdout out.stderr duration_ms)

/-! ## Just argument parsing (`JustfileRunner::parse_args_from_list`)

The regex is `([+*]?)([a-zA-Z_][a-zA-Z0-9_-]*)(?:=['"]?([^'"]*)?['"]?)?`,
applied with `captures_iter`: successive leftmost non-overlapping matches. -/

/-- A quote character of the default-value part. -/
def isQuote (c : Char) : Bool := c = '\'' || c = '"'

/-- Consume one character when it is a quote (the regex piece `['"]?`). -/
def dropQuote : List Char → List Char
  | c :: t => if isQuote c then t else c :: t
  | [] => []

/-- The optional `(?:=['"]?([^'"]*)?['"]?)?` tail: when the input starts with
`=`, consume it, an optional quote, the longest quote-free run (the captured
default, `Some` even when empty), and an optional closing quote; otherwise no
default and nothing consumed.  The body class excludes both quotes, so the
greedy pieces need no backtracking. -/
def matchDefaultPart : List Char → Option String × List Char
  | c :: cs =>
    if c = '=' then
      let cs1 := dropQuote cs
      let body := cs1.takeWhile fun ch => !isQuote ch
      let cs3 := dropQuote (cs1.dropWhile fun ch => !isQuote ch)
      (some (String.mk body), cs3)
    else
      (none, c :: cs)
  | [] => (none, [])

theorem dropQuote_length (l : List Char) : (dropQuote l).length ≤ l.length := by
  match l with
  | [] => simp [dropQuote]
  | c :: t => simp only [dropQuote]; split <;> simp

theorem matchDefaultPart_length (cs : List Char) :
    (matchDefaultPart cs).2.length ≤ cs.length := by
  match cs with
  | [] => simp [matchDefaultPart]
  | c :: t =>
    simp only [matchDefaultPart]
    split
    · have h1 : (dropQuote t).length ≤ t.length := dropQuote_length t
      have h2 : ((dropQuote t).dropWhile fun ch => !isQuote ch).length ≤ (dropQuote t).length :=
        (List.dropWhile_sublist _).length_le
      have h3 := dropQuote_length ((dropQuote t).dropWhile fun ch => !isQuote ch)
      simp only [List.length_cons]
      omega
    · simp

/-- The `TaskArg` one regex match produces: `required` is
`prefix.is_empty() && default.is_none()`. -/
def mkListArg (pre : String) (nm : List Char) (df : Option String) : TaskArg :=
  { name := String.mk nm, required := pre.isEmpty && df.isNone, default := df,
    description := none }

theorem takeName_length {l nm rest} (h : takeName l = some (nm, rest)) :
    rest.length < l.length := by
  match l with
  | [] => simp [takeName] at h
  | c :: cs =>
    simp only [takeName] at h
    split at h
    · injection h with h'
      injection h' with h1 h2
      subst h2
      exact Nat.lt_succ_of_le (List.dropWhile_sublist _).length_le
    · exact absurd h (by simp)

/-- One match of the argument regex at the very start of the input: the
variadic marker (group 1), the produced `TaskArg`, and the unconsumed rest
(with the built-in guarantee that a match consumes at least one character).
When the head is `+` or `*` a name must follow it, for backtracking into an
empty group 1 would place the name class on the marker character and fail. -/
def matchArgAt (s : List Char) :
    Option (String × TaskArg × {rest : List Char // rest.length < s.length}) :=
  match s with
  | [] => none
  | c :: cs =>
    if c = '+' || c = '*' then
      match h : takeName cs with
      | some (nm, rest) =>
        let p := matchDefaultPart rest
        some (String.mk [c], mkListArg (String.mk [c]) nm p.1,
          ⟨p.2, by
            have h1 : p.2.length ≤ rest.length := matchDefaultPart_length rest
            have h2 : rest.length < cs.length := takeName_length h
            simp only [List.length_cons]
            omega⟩)
      | none => none
    else
      match h : takeName (c :: cs) with
      | some (nm, rest) =>
        let p := matchDefaultPart rest
        some ("", mkListArg "" nm p.1,
          ⟨p.2, by
            have h1 : p.2.length ≤ rest.length := matchDefaultPart_length rest
            have h2 : rest.length < (c :: cs).length := takeName_length h
            omega⟩)
      | none => none

/-- `captures_iter` of the argument regex over the whole input: match at the
current position, emit and continue after the match, or slide one character.
The recursion is on fuel so that the definition reduces inside the kernel;
each step consumes at least one character (`matchArgAt`'s subtype bound), so
fuel `s.length + 1` never runs out. -/
def scanArgsF : Nat → List Char → List TaskArg
  | 0, _ => []
  | _ + 1, [] => []
  | fuel + 1, c :: cs =>
    match matchArgAt (c :: cs) with
    | some (_, arg, rest) => arg :: scanArgsF fuel rest.1
    | none => scanArgsF fuel cs

def scanArgs (s : List Char) : List TaskArg := scanArgsF (s.length + 1) s

/-- `JustfileRunner::parse_args_from_list`. -/
def parse_args_from_list (args_str : String) : List TaskArg :=
  if args_str.isEmpty then [] else scanArgs args_str.toList

/-! ## Just structured dump parsing (`JustfileRunner::parse_dump_json`)

The serde deserialisation itself is not re-modelled; the embedding starts from
the deserialised value: a map of recipe name to `{doc, parameters}`, each
parameter `{name, default : Option<serde_json::Value>, kind}`. -/

/-- A deserialised `serde_json::Value` default: either a JSON string (whose
payload is taken as-is) or any other value (kept as its `to_string()` JSON
rendering, which is all `parse_dump_json` uses of it). -/
inductive JsonVal where
  | str (s : String)
  | other (rendered : String)
deriving Repr, DecidableEq

/-- `JustParameter` of `parse_dump_json`. -/
structure JustParameter where
  name : String
  default : Option JsonVal
  kind : String
deriving Repr, DecidableEq

/-- `JustRecipe` of `parse_dump_json`. -/
structure JustRecipe where
  doc : Option String
  parameters : List JustParameter
deriving Repr, DecidableEq

/-- The `TaskArg` built from one dump parameter: the default is converted to a
string, and `required = default.is_none() && kind != "Plus" && kind != "Star"`. -/
def dumpParamToArg (p : JustParameter) : TaskArg :=
  let df := p.default.map fun v =>
    match v with
    | .str s => s
    | .other r => r
  { name := p.name
    required := df.isNone && !(p.kind == "Plus") && !(p.kind == "Star")
    default := df
    description := none }

/-- `tasks.sort_by(|a, b| a.name.cmp(&b.name))` (stable sort by name). -/
def sortTasksByName (ts : List TaskInfo) : List TaskInfo :=
  ts.mergeSort fun a b => decide (a.name ≤ b.name)

/-- `JustfileRunner::parse_dump_json` over the deserialised recipe map, given
as its association list (`HashMap` iteration order is unspecified, and the
final sort makes the result independent of it). -/
def parse_dump_json (recipes : List (String × JustRecipe)) : List TaskInfo :=
  sortTasksByName <| recipes.map fun nr =>
    { name := nr.1, description := nr.2.doc, arguments := nr.2.parameters.map dumpParamToArg }

/-! ## Make variable extraction (`MakefileRunner::extract_make_args`)

The recipe-body regex is `\$[({]([A-Z_][A-Z0-9_]*)[)}]`. -/

/-- The regex class `[A-Z_]`. -/
def isUpperStart (c : Char) : Bool := ('A' ≤ c && c ≤ 'Z') || c = '_'

/-- The regex class `[A-Z0-9_]`. -/
def isUpperChar (c : Char) : Bool := isUpperStart c || ('0' ≤ c && c ≤ '9')

/-- One match of the variable-reference regex at the start of the input: `$`,
an opening `(` or `{`, the captured name, a closing `)` or `}` (the pattern
accepts mismatched pairs, as the character classes do).  A successful match
consumes at least four characters; the subtype records that it consumes at
least one. -/
def matchMakeVarAt (s : List Char) :
    Option (String × {rest : List Char // rest.length < s.length}) :=
  match s with
  | '$' :: b :: cs =>
    if b = '(' || b = '{' then
      match cs with
      | c :: cs2 =>
        if isUpperStart c then
          let nm := c :: cs2.takeWhile isUpperChar
          match h : cs2.dropWhile isUpperChar with
          | e :: rest2 =>
            if e = ')' || e = '}' then
              some (String.mk nm,
                ⟨rest2, by
                  have h1 : (e :: rest2).length ≤ cs2.length := by
                    rw [← h]; exact (List.dropWhile_sublist _).length_le
                  simp only [List.length_cons] at h1 ⊢
                  omega⟩)
            else none
          | [] => none
        else none
      | [] => none
    else none
  | _ => none

/-- `captures_iter` of the variable-reference regex over one recipe line
(fuelled like `scanArgsF`; a match consumes at least one character, so fuel
`s.length + 1` never runs out). -/
def scanMakeVarsF : Nat → List Char → List String
  | 0, _ => []
  | _ + 1, [] => []
  | fuel + 1, c :: cs =>
    match matchMakeVarAt (c :: cs) with
    | some (nm, rest) => nm :: scanMakeVarsF fuel rest.1
    | none => scanMakeVarsF fuel cs

def scanMakeVars (s : List Char) : List String := scanMakeVarsF (s.length + 1) s

/-- `is_builtin_make_var` of `makefile.rs`. -/
def is_builtin_make_var (name : String) : Bool :=
  ["MAKE", "MAKEFLAGS", "MAKEFILES", "MAKELEVEL", "MAKECMDGOALS", "CURDIR",
    "SHELL", "PATH", "HOME", "USER", "CC", "CXX", "CFLAGS", "CXXFLAGS",
    "LDFLAGS", "AR", "RM", "ARFLAGS"].contains name

/-- A recipe line: starts with a tab, or is empty (the loop breaks at the
first line that is neither). -/
def isRecipeLine (l : String) : Bool := l.startsWith "\t" || l.isEmpty

/-- `mut args: Vec<TaskArg>` is finally sorted by name, so sorting the
deduplicated names first and mapping after is the same list. -/
def sortStrings (l : List String) : List String :=
  l.mergeSort fun a b => decide (a ≤ b)

/-- `MakefileRunner::extract_make_args`: scan the recipe lines following the
target line for non-builtin `$(VAR)`/`${VAR}` references; the `HashSet`
deduplicates, and each surviving name becomes an optional argument. -/
def extract_make_args (lines : List String) (target_line : Nat) : List TaskArg :=
  let recipe := (lines.drop (target_line + 1)).takeWhile isRecipeLine
  let names := recipe.flatMap fun l => scanMakeVars l.toList
  let kept := (names.filter fun n => !is_builtin_make_var n).eraseDups
  (sortStrings kept).map fun nm =>
    { name := nm, required := false, default := none, description := none }

/-! ## Just textual listing (`JustfileRunner::parse_list_output`)

The line regex is `^\s{4}([a-zA-Z_][a-zA-Z0-9_-]*)\s*([^#]*?)(?:\s*#\s*(.*))?$`.
Because the lazy group 2 cannot contain `#` and the optional tail must reach
the end of the line, a matching line splits at its first `#`: group 2 (which
the caller trims) is everything between the name and that `#`, group 3 (also
trimmed) everything after it; with no `#`, group 3 is absent.  `\s{4}` matches
exactly four whitespace characters, and the name must start at the fifth. -/

/-- One `--list` line: the captured name, the trimmed argument substring and
the trimmed comment, or `none` when the regex does not match. -/
def parseListLine (line : String) : Option (String × String × Option String) :=
  match line.toList with
  | a :: b :: c :: d :: rest =>
    if isWS a && isWS b && isWS c && isWS d then
      match takeName rest with
      | some (nm, rest2) =>
        let argsPart := rest2.takeWhile fun ch => ch ≠ '#'
        match rest2.dropWhile fun ch => ch ≠ '#' with
        | [] => some (String.mk nm, String.mk (trimChars argsPart), none)
        | _ :: afterHash =>
          some (String.mk nm, String.mk (trimChars argsPart),
            some (String.mk (trimChars afterHash)))
      | none => none
    else none
  | _ => none

/-- One line step of `parse_list_output`: skip the `Available recipes:`
header and blank lines, otherwise parse the line and append its task. -/
def parseListStep (tasks : List TaskInfo) (line : String) : List TaskInfo :=
  if line.startsWith "Available" || (trimChars line.toList).isEmpty then tasks
  else
    match parseListLine line with
    | some (nm, argsStr, desc) =>
      tasks ++ [{ name := nm, description := desc,
                  arguments := parse_args_from_list argsStr }]
    | none => tasks

/-- `JustfileRunner::parse_list_output` (this strategy keeps no seen-set). -/
def parse_list_output (output : String) : List TaskInfo :=
  (rustLines output).foldl parseListStep []

/-! ## Direct justfile parsing (`JustfileRunner::parse_justfile`)

The recipe regex is `^@?([a-zA-Z_][a-zA-Z0-9_-]*)\s*([^:]*?):\s*.*$`: an
optional `@`, the name, then (group 2, lazily) everything before the first
`:`, which must exist.  The doc regex is `^#\s*(.*)$` on the preceding line. -/

/-- One recipe-definition line: the captured name and the trimmed argument
substring, or `none` when the line has no `:` after a leading name. -/
def justRecipeCapture (cs : List Char) : Option (String × String) :=
  let cs1 := match cs with
    | '@' :: t => t
    | _ => cs
  match takeName cs1 with
  | some (nm, rest) =>
    match rest.dropWhile fun ch => ch ≠ ':' with
    | ':' :: _ => some (String.mk nm, String.mk (trimChars (rest.takeWhile fun ch => ch ≠ ':')))
    | _ => none
  | none => none

/-- The doc-comment regex `^#\s*(.*)$`, trimmed as the caller trims it. -/
def docComment (prev : String) : Option String :=
  match prev.toList with
  | '#' :: rest => some (String.mk (trimChars rest))
  | _ => none

/-- The loop of `parse_justfile`: `i` indexes `line` within `lines`, `seen`
is the seen-recipes set, `acc` the collected tasks. -/
def parseJustfileGo (lines : List String) :
    List String → Nat → List String → List TaskInfo → List TaskInfo
  | [], _, _, acc => acc
  | line :: rest, i, seen, acc =>
    match justRecipeCapture line.toList with
    | some (nm, argsStr) =>
      if seen.contains nm then
        parseJustfileGo lines rest (i + 1) seen acc
      else
        let description := if i > 0 then
            match lines.get? (i - 1) with
            | some prev => docComment prev
            | none => none
          else none
        parseJustfileGo lines rest (i + 1) (nm :: seen)
          (acc ++ [{ name := nm, description := description,
                     arguments := parse_args_from_list argsStr }])
    | none => parseJustfileGo lines rest (i + 1) seen acc

/-- `JustfileRunner::parse_justfile` over the file's lines. -/
def parse_justfile (lines : List String) : List TaskInfo :=
  sortTasksByName (parseJustfileGo lines lines 0 [] [])

/-! ## Direct Makefile parsing (`MakefileRunner::parse_makefile`)

`TARGET_RE` is `^([a-zA-Z_][a-zA-Z0-9_-]*)\s*:`; `COMMENT_DESC_RE` is
`^##\s*(.+)$|^#\s*([a-zA-Z_][a-zA-Z0-9_-]*)\s*:\s*(.+)$`. -/

/-- A `TARGET_RE` match: the captured name, and the suffix of the line that
starts at the matched `:` (Rust's `after_name`, taken at `caps[0].end() - 1`). -/
def targetCapture (cs : List Char) : Option (String × List Char) :=
  match takeName cs with
  | some (nm, rest) =>
    match rest.dropWhile isWS with
    | ':' :: tail => some (String.mk nm, ':' :: tail)
    | _ => none
  | none => none

/-- The `after_name.starts_with(":=" | "::=" | "?=" | "+=")` test (the last
two can never hold of a suffix that starts with `:`). -/
def afterNameAssign (after : List Char) : Bool :=
  ":=".toList.isPrefixOf after || "::=".toList.isPrefixOf after ||
    "?=".toList.isPrefixOf after || "+=".toList.isPrefixOf after

/-- The `line.contains(":=" | "?=" | "+=" | "::=")` variable-assignment test. -/
def isVarAssignLine (cs : List Char) : Bool :=
  containsSub cs ":=".toList || containsSub cs "?=".toList ||
    containsSub cs "+=".toList || containsSub cs "::=".toList

/-- `COMMENT_DESC_RE` applied to the line preceding a target, as
`extract_description` reads its captures: a `## text` line yields the trimmed
text (the alternative needs at least one character after `##`); a
`# name: text` line yields the trimmed text only when `name` equals the
target and the text after `:` is not all whitespace (`(.+)` needs one
character after the greedy `\s*`, and the caller trims). -/
def commentDesc (prev : String) (target : String) : Option String :=
  match prev.toList with
  | '#' :: '#' :: rest =>
    if rest.isEmpty then none else some (String.mk (trimChars rest))
  | '#' :: rest =>
    match takeName (rest.dropWhile isWS) with
    | some (nm, r2) =>
      match r2.dropWhile isWS with
      | ':' :: r4 =>
        if (trimChars r4).isEmpty then none
        else if String.mk nm = target then some (String.mk (trimChars r4)) else none
      | _ => none
    | none => none
  | _ => none

/-- `MakefileRunner::extract_description`: only the line immediately before
the target is inspected. -/
def extract_description (linesBefore : List String) (target : String) : Option String :=
  match linesBefore.getLast? with
  | some prev => commentDesc prev target
  | none => none

/-- The loop of `parse_makefile`: for each line, capture a target, skip
variable assignments (`after_name` prefix test, then the whole-line `contains`
test), already-seen names and dot-prefixed names (unreachable: `TARGET_RE`
names start with `[a-zA-Z_]`), then collect the target with its description
and recipe arguments. -/
def parseMakefileGo (lines : List String) :
    List String → Nat → List String → List TaskInfo → List TaskInfo
  | [], _, _, acc => acc
  | line :: rest, i, seen, acc =>
    match targetCapture line.toList with
    | some (nm, after) =>
      if afterNameAssign after then parseMakefileGo lines rest (i + 1) seen acc
      else if isVarAssignLine line.toList then parseMakefileGo lines rest (i + 1) seen acc
      else if seen.contains nm then parseMakefileGo lines rest (i + 1) seen acc
      else if nm.startsWith "." then parseMakefileGo lines rest (i + 1) seen acc
      else
        let description := if i > 0 then extract_description (lines.take i) nm else none
        let arguments := extract_make_args lines i
        parseMakefileGo lines rest (i + 1) (nm :: seen)
          (acc ++ [{ name := nm, description := description, arguments := arguments }])
    | none => parseMakefileGo lines rest (i + 1) seen acc

/-- `MakefileRunner::parse_makefile` over the file's lines. -/
def parse_makefile (lines : List String) : List TaskInfo :=
  sortTasksByName (parseMakefileGo lines lines 0 [] [])

/-! ## Script help-text parsing (`ScriptRunner::parse_help_output`)

`CMD_SECTION_RE` is the unanchored case-insensitive `(?i)commands?:`, so a
line matches exactly when it contains `command:` or `commands:` up to ASCII
case.  `CMD_LINE_RE` is `^\s{2,4}([a-zA-Z_][a-zA-Z0-9_-]*)\s+(.*)$`: the
quantifier `\s{2,4}` backtracks only against the name class, which is disjoint
from whitespace, so a match needs the line to open with a whitespace run of
exactly two to four characters, followed by a name and at least one further
whitespace character (the name class is also disjoint from whitespace, so the
`\s+` after it cannot be fed by backtracking the capture).  `ALT_CMD_RE` is
`^\s{2,4}([a-zA-Z_][a-zA-Z0-9_-]*)\s+[-:]?\s*(.*)$`, the same opening with an
optional `[-:]` separator before the description; the trailing `(.*)$` always
matches, so every greedy run keeps its maximum. -/

/-- ASCII lowercase of one character (the help text the runner parses is
ASCII, as in `isWS`). -/
def lowerChar (c : Char) : Char :=
  if 'A' ≤ c && c ≤ 'Z' then Char.ofNat (c.toNat + 32) else c

/-- Rust `str::to_lowercase` on ASCII text. -/
def lowerStr (s : String) : String := String.mk (s.toList.map lowerChar)

/-- `CMD_SECTION_RE.is_match`: the line contains `command:` or `commands:`
up to case. -/
def cmdSectionMatch (line : String) : Bool :=
  strContains (lowerStr line) "command:" || strContains (lowerStr line) "commands:"

/-- The opening `^\s{2,4}([a-zA-Z_][a-zA-Z0-9_-]*)\s+` shared by `CMD_LINE_RE`
and `ALT_CMD_RE`: a leading whitespace run of length two to four, the captured
name, and at least one whitespace character after it; returns the name and the
rest of the line starting at that whitespace run. -/
def cmdLineOpen (cs : List Char) : Option (String × List Char) :=
  let w := (cs.takeWhile isWS).length
  if 2 ≤ w && w ≤ 4 then
    match takeName (cs.dropWhile isWS) with
    | some (nm, after) =>
      match after with
      | c :: _ => if isWS c then some (String.mk nm, after) else none
      | [] => none
    | none => none
  else none

/-- `CMD_LINE_RE` captures: the name, and group 2 after the greedy `\s+`. -/
def cmdLineCapture (cs : List Char) : Option (String × String) :=
  (cmdLineOpen cs).map fun p => (p.1, String.mk (p.2.dropWhile isWS))

/-- `ALT_CMD_RE` captures: after the greedy `\s+`, an optional single `[-:]`
separator, then the greedy `\s*`, then group 2. -/
def altCmdCapture (cs : List Char) : Option (String × String) :=
  (cmdLineOpen cs).map fun p =>
    let r1 := p.2.dropWhile isWS
    let r2 := match r1 with
      | c :: t => if c = '-' || c = ':' then t else r1
      | [] => r1
    (p.1, String.mk (r2.dropWhile isWS))

/-- The description stored for a help-output task: group 2 trimmed, and
`None` when the trim is empty. -/
def helpDesc (g2 : String) : Option String :=
  let d := trimChars g2.toList
  if d.isEmpty then none else some (String.mk d)

/-- `is_common_word` of `script.rs`. -/
def isCommonWord (w : String) : Bool :=
  ["the", "and", "for", "with", "from", "into", "usage", "options",
   "arguments", "description", "example", "examples", "note", "notes",
   "see", "also", "more", "info"].contains (lowerStr w)

/-- One line of pattern 1 of `parse_help_output` (the `Commands:` section
scan); the state is the in-section flag and the tasks collected so far.  A
blank line ends the section only once a task was found; inside the section
every `CMD_LINE_RE` match is pushed with no duplicate check. -/
def helpSectionStep (st : Bool × List TaskInfo) (line : String) : Bool × List TaskInfo :=
  if cmdSectionMatch line then (true, st.2)
  else if st.1 then
    if (trimChars line.toList).isEmpty && !st.2.isEmpty then (false, st.2)
    else
      match cmdLineCapture line.toList with
      | some (nm, g2) =>
        (true, st.2 ++ [{ name := nm, description := helpDesc g2, arguments := [] }])
      | none => (true, st.2)
  else st

/-- One line of pattern 2 of `parse_help_output` (the fallback scan, run only
when pattern 1 found nothing): skip lines whose trim opens with `-`, skip
common words, and deduplicate by name before pushing. -/
def helpAltStep (tasks : List TaskInfo) (line : String) : List TaskInfo :=
  if (trimChars line.toList).head? = some '-' then tasks
  else
    match altCmdCapture line.toList with
    | some (nm, g2) =>
      if isCommonWord nm then tasks
      else if tasks.any (fun t => t.name == nm) then tasks
      else tasks ++ [{ name := nm, description := helpDesc g2, arguments := [] }]
    | none => tasks

/-- `ScriptRunner::parse_help_output`: the `Commands:` section scan, the
fallback scan when the first found nothing, then a sort by name (the `Ok`
wrapper of the always-successful `RunnerResult` is dropped). -/
def parse_help_output (output : String) : List TaskInfo :=
  let p1 := ((rustLines output).foldl helpSectionStep (false, [])).2
  let tasks := if p1.isEmpty then (rustLines output).foldl helpAltStep [] else p1
  sortTasksByName tasks

/-! ## Detection (`src/runner/detect.rs`)

The filesystem is abstracted to two predicates: whether a name in the
directory exists and is a regular file, and whether it carries an executable
permission bit (the Unix branch; `check_scripts` skips a candidate whose
metadata marks it non-executable). -/

/-- `RunnerType` of `detect.rs`. -/
inductive RunnerType where
  | make
  | just
  | script (name : String)
deriving Repr, DecidableEq

/-- The directory being probed. -/
structure FS where
  isFile : String → Bool
  isExec : String → Bool

/-- `FilesFound` of `detect.rs`. -/
structure FilesFound where
  makefile : Bool
  makefile_path : Option String
  justfile : Bool
  justfile_path : Option String
  scripts : List String
deriving Repr, DecidableEq

/-- `DetectionResult` of `detect.rs`. -/
structure DetectionResult where
  detected : Option RunnerType
  available : List RunnerType
  files_found : FilesFound
deriving Repr, DecidableEq

/-- `DetectionResult::default()`. -/
def emptyDetection : DetectionResult :=
  { detected := none, available := [],
    files_found := { makefile := false, makefile_path := none, justfile := false,
                     justfile_path := none, scripts := [] } }

/-- The Makefile marker names, in probe order. -/
def MAKEFILE_NAMES : List String := ["Makefile", "makefile", "GNUmakefile"]

/-- The justfile marker names, in probe order. -/
def JUSTFILE_NAMES : List String := ["justfile", "Justfile", ".justfile"]

/-- `script_name.strip_prefix("./").unwrap_or(script_name)`. -/
def stripDotSlash (s : String) : String :=
  if s.startsWith "./" then s.drop 2 else s

/-- The `./`-prefixed display path `check_scripts` records for a candidate. -/
def scriptDisplayPath (c : String) : String := "./" ++ stripDotSlash c

/-- Whether one script candidate has evidence: its cleaned name is a regular
file with an executable bit. -/
def scriptOk (fs : FS) (c : String) : Bool :=
  fs.isFile (stripDotSlash c) && fs.isExec (stripDotSlash c)

/-- The configuration fields detection reads:
`config.defaults.runner_priority` and `config.runners.script.scripts`. -/
structure Config where
  runner_priority : List String
  scripts : List String

/-- `check_makefile`: probe the marker names in order; at the first hit record
the evidence, append `Make` to `available` and claim `detected` when still
unset. -/
def check_makefile (fs : FS) (r : DetectionResult) : DetectionResult :=
  match MAKEFILE_NAMES.find? fs.isFile with
  | some name =>
    { r with
      files_found := { r.files_found with makefile := true, makefile_path := some name }
      available := r.available ++ [RunnerType.make]
      detected := some (r.detected.getD RunnerType.make) }
  | none => r

/-- `check_justfile`, symmetric to `check_makefile`. -/
def check_justfile (fs : FS) (r : DetectionResult) : DetectionResult :=
  match JUSTFILE_NAMES.find? fs.isFile with
  | some name =>
    { r with
      files_found := { r.files_found with justfile := true, justfile_path := some name }
      available := r.available ++ [RunnerType.just]
      detected := some (r.detected.getD RunnerType.just) }
  | none => r

/-- One candidate step of `check_scripts`. -/
def checkScriptStep (fs : FS) (r : DetectionResult) (c : String) : DetectionResult :=
  if scriptOk fs c then
    { r with
      files_found := { r.files_found with scripts := r.files_found.scripts ++ [scriptDisplayPath c] }
      available := r.available ++ [RunnerType.script (scriptDisplayPath c)]
      detected := some (r.detected.getD (RunnerType.script (scriptDisplayPath c))) }
  else r

/-- `check_scripts`: every candidate with evidence is recorded (the loop does
not stop at the first). -/
def check_scripts (fs : FS) (cands : List String) (r : DetectionResult) : DetectionResult :=
  cands.foldl (checkScriptStep fs) r

/-- One entry of the priority loop of `detect_runner` (an unknown entry only
logs a warning). -/
def detectStep (fs : FS) (cfg : Config) (r : DetectionResult) (e : String) : DetectionResult :=
  if e = "make" then check_makefile fs r
  else if e = "just" then check_justfile fs r
  else if e = "script" then check_scripts fs cfg.scripts r
  else r

/-- `detect_runner` of `detect.rs`. -/
def detect_runner (fs : FS) (cfg : Config) : DetectionResult :=
  cfg.runner_priority.foldl (detectStep fs cfg) emptyDetection

/-! Specification-side notions for the detection invariant. -/

/-- Make marker evidence: some Makefile name is a file. -/
def makeEvidence (fs : FS) : Bool := MAKEFILE_NAMES.any fs.isFile

/-- Just marker evidence. -/
def justEvidence (fs : FS) : Bool := JUSTFILE_NAMES.any fs.isFile

/-- Whether one priority entry has evidence in the directory. -/
def entryEvidence (fs : FS) (cfg : Config) (e : String) : Bool :=
  if e = "make" then makeEvidence fs
  else if e = "just" then justEvidence fs
  else if e = "script" then cfg.scripts.any (scriptOk fs)
  else false

/-- The backend a priority entry with evidence selects when it is the first
such entry: for `script`, the first candidate with evidence. -/
def entryDetected (fs : FS) (cfg : Config) (e : String) : Option RunnerType :=
  if e = "make" then some RunnerType.make
  else if e = "just" then some RunnerType.just
  else if e = "script" then
    (cfg.scripts.find? (scriptOk fs)).map fun c => RunnerType.script (scriptDisplayPath c)
  else none

/-- The backend the first evidence-backed entry of `entries` selects. -/
def detectedSpecOn (fs : FS) (cfg : Config) (entries : List String) : Option RunnerType :=
  (entries.find? (entryEvidence fs cfg)).bind fun e => entryDetected fs cfg e

/-- The detected backend as the specification words it: scan the priority
order for the first entry with evidence. -/
def detectedSpec (fs : FS) (cfg : Config) : Option RunnerType :=
  detectedSpecOn fs cfg cfg.runner_priority

/-- What one priority entry contributes to `detected` when nothing was
detected before it. -/
def stepDetected (fs : FS) (cfg : Config) (e : String) : Option RunnerType :=
  if entryEvidence fs cfg e = true then entryDetected fs cfg e else none

/-- Marker evidence for one backend value, as `available` membership should
reflect it. -/
def rtEvidence (fs : FS) (cfg : Config) : RunnerType → Bool
  | .make => makeEvidence fs
  | .just => justEvidence fs
  | .script p => cfg.scripts.any fun c => scriptOk fs c && (scriptDisplayPath c == p)

/-- One stream for which `read_and_truncate` with `max_size := 28` (the
marker's own byte length) preserves exactly one content copy of the marker
before appending its own: the bytes of `"\n"`, `"... [output truncated] ...\n"`
and `"x\n"`, as three successive `read_line` results. -/
def truncCexLines : List (List Nat) :=
  [[10], "... [output truncated] ...".toList.map Char.toNat ++ [10], [120, 10]]

/-- Specification-side reading of one Makefile line for C7: the line matches
`TARGET_RE` with captured name `nm`, is not a variable assignment (neither by
the `after_name` prefix test nor by the whole-line `contains` test), and the
name is not dot-prefixed (vacuous, since `TARGET_RE` names start with
`[a-zA-Z_]`). -/
def yieldsTarget (nm : String) (line : String) : Bool :=
  match targetCapture line.toList with
  | some (nm2, after) =>
    nm2 == nm && !afterNameAssign after && !isVarAssignLine line.toList &&
      !nm2.startsWith "."
  | none => false

/-! # Theorems -/

/-! ## Utility lemmas -/

theorem joinParts_cons_ne {l : List String} (p : String) (h : l ≠ []) :
    joinParts (p :: l) = p ++ " " ++ joinParts l := by
  match l with
  | [] => exact absurd rfl h
  | q :: t => rfl

theorem joinParts_append {xs ys : List String} (hx : xs ≠ []) (hy : ys ≠ []) :
    joinParts (xs ++ ys) = joinParts xs ++ " " ++ joinParts ys := by
  induction xs with
  | nil => exact absurd rfl hx
  | cons x t ih =>
    match t with
    | [] =>
      simpa using joinParts_cons_ne x hy
    | q :: t' =>
      rw [List.cons_append, joinParts_cons_ne x (by simp),
        joinParts_cons_ne x (l := q :: t') (by simp), ih (by simp)]
      simp [String.append_assoc]

theorem one_le_countOccur_append [BEq α] [LawfulBEq α] (needle xs : List α) :
    1 ≤ countOccur needle (xs ++ needle) := by
  induction xs with
  | nil =>
    match needle with
    | [] => simp [countOccur]
    | c :: t =>
      simp only [List.nil_append, countOccur]
      have : (c :: t).isPrefixOf (c :: t) = true := by
        simp [List.isPrefixOf_iff_prefix]
      rw [this]
      simp
  | cons x t ih =>
    simp only [List.cons_append, countOccur, List.append_eq]
    split <;> omega

/-! ## C8: the rendered Make command line -/

/-- C8: for the Make runner, `build_command` on task `build` with the single
named argument `TARGET=release` and no positionals renders exactly
`make build TARGET=release`; in general named arguments render as `KEY=VALUE`
right after the task name, and positional arguments are appended only behind
a `--` separator. -/
theorem make_build_command_spec :
    MakefileRunner.build_command "make" "build"
        { args := [("TARGET", "release")], positional_args := [], env := [] } =
      "make build TARGET=release" ∧
    (∀ mk task options, options.positional_args = [] →
      MakefileRunner.build_command mk task options =
        joinParts ([mk, task] ++ options.args.map fun kv => kv.1 ++ "=" ++ kv.2)) ∧
    (∀ mk task options, options.positional_args ≠ [] →
      MakefileRunner.build_command mk task options =
        joinParts ([mk, task] ++ options.args.map fun kv => kv.1 ++ "=" ++ kv.2)
          ++ " -- " ++ joinParts options.positional_args) := by
  refine ⟨by decide, ?_, ?_⟩
  · intro mk task options h
    simp [MakefileRunner.build_command, h]
  · intro mk task options h
    have hne : options.positional_args.isEmpty = false := by
      cases hl : options.positional_args with
      | nil => exact absurd hl h
      | cons a l => simp
    rw [MakefileRunner.build_command, hne]
    simp only [Bool.false_eq_true, if_false]
    rw [joinParts_append (by simp) (by simp), joinParts_cons_ne "--" h]
    have e1 : ∀ s : String, " " ++ ("--" ++ (" " ++ s)) = " -- " ++ s := by
      intro s
      rw [show (" -- " : String) = " " ++ "--" ++ " " by decide, String.append_assoc,
        String.append_assoc]
    simp only [String.append_assoc]
    rw [e1]

/-! ## C10: a returned `ExecResult` never has `timed_out` set -/

/-- C10: every `ExecResult` that `exec_command` returns with `Ok` has
`timed_out = false` (line 196 of `executor/runner.rs` writes the literal);
a deadline expiry is surfaced only as a `Timeout` error. -/
theorem exec_command_ok_not_timed_out (program : String) (args : List String)
    (options : ExecOptions) (sc : ExecScenario) (dur : Nat) (r : ExecResult)
    (h : exec_command program args options sc dur = .ok r) : r.timed_out = false := by
  rcases options with ⟨ts, ms⟩
  rcases sc with ⟨se, ex, wo⟩
  unfold exec_command at h
  cases se with
  | some e => simp at h
  | none =>
    cases ts with
    | some t =>
      cases ex with
      | true => simp at h
      | false =>
        cases wo with
        | error e => simp at h
        | ok w =>
          simp only [Bool.false_eq_true, if_false, Except.ok.injEq] at h
          subst h
          rfl
    | none =>
      cases wo with
      | error e => simp at h
      | ok w =>
        simp only [Except.ok.injEq] at h
        subst h
        rfl

theorem exec_command_ok_not_timed_out_witness :
    exec_command "false" [] { timeoutSecs := none, max_output_size := 100000 }
        { spawnError := none, expired := false,
          waitOutcome := .ok ⟨some 1, "", "boom", false, false⟩ } 7 =
      .ok (mkExecResult ⟨some 1, "", "boom", false, false⟩ 7) ∧
    (mkExecResult ⟨some 1, "", "boom", false, false⟩ 7).timed_out = false :=
  ⟨rfl,
    exec_command_ok_not_timed_out "false" [] { timeoutSecs := none, max_output_size := 100000 }
      { spawnError := none, expired := false,
        waitOutcome := .ok ⟨some 1, "", "boom", false, false⟩ } 7
      (mkExecResult ⟨some 1, "", "boom", false, false⟩ 7) rfl⟩

/-! ## C3: timeout expiry -/

/-- C3: when the spawn succeeded, a timeout is configured, and the race
expires before the spawn-wait-drain future finishes, `exec_command` returns
the `Timeout` error (no `ExecResult`; whatever `wait_for_output` captured is
discarded, since the expired branch never reads `waitOutcome`), and the child
— spawned with `kill_on_drop(true)` and dropped unfinished — is killed. -/
theorem exec_command_timeout_spec (program : String) (args : List String)
    (options : ExecOptions) (sc : ExecScenario) (dur t : Nat)
    (hspawn : sc.spawnError = none) (ht : options.timeoutSecs = some t)
    (hexp : sc.expired = true) :
    exec_command program args options sc dur =
      .error (.timeout (program ++ " " ++ joinParts args) t) ∧
    childFateAfter execKillOnDrop false = .killed := by
  refine ⟨?_, rfl⟩
  unfold exec_command
  rw [hspawn, ht, hexp]
  simp

theorem exec_command_timeout_spec_witness :
    ({ spawnError := none, expired := true,
       waitOutcome := .ok ⟨some 0, "partial output", "", false, false⟩ } : ExecScenario).spawnError
        = none ∧
    ({ timeoutSecs := some 5, max_output_size := 100000 } : ExecOptions).timeoutSecs = some 5 ∧
    ({ spawnError := none, expired := true,
       waitOutcome := .ok ⟨some 0, "partial output", "", false, false⟩ } : ExecScenario).expired
        = true ∧
    (exec_command "sleep" ["10"] { timeoutSecs := some 5, max_output_size := 100000 }
        { spawnError := none, expired := true,
          waitOutcome := .ok ⟨some 0, "partial output", "", false, false⟩ } 42 =
      .error (.timeout ("sleep" ++ " " ++ joinParts ["10"]) 5) ∧
      childFateAfter execKillOnDrop false = .killed) :=
  ⟨rfl, rfl, rfl,
    exec_command_timeout_spec "sleep" ["10"] { timeoutSecs := some 5, max_output_size := 100000 }
      { spawnError := none, expired := true,
        waitOutcome := .ok ⟨some 0, "partial output", "", false, false⟩ } 42 5 rfl rfl rfl⟩

/-! ## C9: `read_and_truncate` can hit a non-character-boundary slice -/

/-- C9: `read_and_truncate` is not total.  On the single line with bytes
`C3 A9 0A` (the valid UTF-8 encoding of `é` followed by a newline) and
`max_size = 1`, the truncation branch computes `remaining = 1` and slices the
line at byte index 1 — the middle of the two-byte character — which in the
Rust source (`&line[..remaining.min(line.len())]`) panics; the model returns
`none` there. -/
theorem read_and_truncate_multibyte_panic :
    read_and_truncate [[195, 169, 10]] 1 = none := by decide

/-! ## C1: execution-failure classification of the three runners -/

/-- C1: for each backend, once the process was spawned and exited nonzero
(`statusSuccess = false`), the captured stderr decides the outcome: the
backend's task-not-found phrasing yields a `TaskNotFound` error whose
`available` list is the names of the freshly recomputed `list_tasks` result
(`listRes`, with a discovery error degrading to the empty list); any other
stderr yields `Ok` with a `RunResult` whose `success` is `false`, never an
error. -/
theorem run_task_failure_policy (cmdName task : String) (options : RunOptions)
    (out : ProcOutput) (dur : Nat) (listRes : Except TaskError (List TaskInfo))
    (hfail : out.statusSuccess = false) :
    (makeNotFoundPhrase out.stderr = true →
      MakefileRunner.executeOutcome cmdName task options out dur listRes =
        .error (.taskNotFound task ((unwrapOrDefault listRes).map TaskInfo.name)
          (suggest_fix (MakefileRunner.build_command cmdName task options) out.stderr))) ∧
    (makeNotFoundPhrase out.stderr = false →
      ∃ r, MakefileRunner.executeOutcome cmdName task options out dur listRes = .ok r ∧
        r.success = false) ∧
    (justNotFoundPhrase out.stderr = true →
      JustfileRunner.executeOutcome cmdName task options out dur listRes =
        .error (.taskNotFound task ((unwrapOrDefault listRes).map TaskInfo.name)
          (suggest_fix (JustfileRunner.build_command cmdName task options) out.stderr))) ∧
    (justNotFoundPhrase out.stderr = false →
      ∃ r, JustfileRunner.executeOutcome cmdName task options out dur listRes = .ok r ∧
        r.success = false) ∧
    (scriptNotFoundPhrase out.stderr = true →
      ScriptRunner.executeOutcome cmdName task options out dur listRes =
        .error (.taskNotFound task ((unwrapOrDefault listRes).map TaskInfo.name)
          (suggest_fix (ScriptRunner.build_command cmdName task options) out.stderr))) ∧
    (scriptNotFoundPhrase out.stderr = false →
      ∃ r, ScriptRunner.executeOutcome cmdName task options out dur listRes = .ok r ∧
        r.success = false) := by
  refine ⟨fun hp => ?_, fun hp => ?_, fun hp => ?_, fun hp => ?_, fun hp => ?_, fun hp => ?_⟩
  · simp [MakefileRunner.executeOutcome, hfail, hp]
  · exact ⟨RunResult.failedResult (MakefileRunner.build_command cmdName task options)
      out.code out.stdout out.stderr dur,
      by simp [MakefileRunner.executeOutcome, hfail, hp], rfl⟩
  · simp [JustfileRunner.executeOutcome, hfail, hp]
  · exact ⟨RunResult.failedResult (JustfileRunner.build_command cmdName task options)
      out.code out.stdout out.stderr dur,
      by simp [JustfileRunner.executeOutcome, hfail, hp], rfl⟩
  · simp [ScriptRunner.executeOutcome, hfail, hp]
  · exact ⟨RunResult.failedResult (ScriptRunner.build_command cmdName task options)
      out.code out.stdout out.stderr dur,
      by simp [ScriptRunner.executeOutcome, hfail, hp], rfl⟩

theorem run_task_failure_policy_witness :
    (⟨false, some 2, "", "No rule to make target"⟩ : ProcOutput).statusSuccess = false ∧
    MakefileRunner.executeOutcome "make" "deploy" ⟨[], [], []⟩
        ⟨false, some 2, "", "No rule to make target"⟩ 5 (.ok [⟨"build", none, []⟩]) =
      .error (.taskNotFound "deploy" (([⟨"build", none, []⟩] : List TaskInfo).map TaskInfo.name)
        (suggest_fix (MakefileRunner.build_command "make" "deploy" ⟨[], [], []⟩)
          "No rule to make target")) :=
  ⟨rfl,
    ((run_task_failure_policy "make" "deploy" ⟨[], [], []⟩
        ⟨false, some 2, "", "No rule to make target"⟩ 5 (.ok [⟨"build", none, []⟩])
        rfl).1) (by decide)⟩

/-! ## C2: output truncation -/

theorem read_and_truncate_go_spec (max_size : Nat) :
    ∀ (lines : List (List Nat)) (output out : List Nat) (flag : Bool),
    output.length ≤ max_size →
    read_and_truncate_go max_size lines output = some (out, flag) →
    (output.length + lines.flatten.length ≤ max_size →
      out = output ++ lines.flatten ∧ flag = false) ∧
    (max_size < output.length + lines.flatten.length →
      flag = true ∧ ∃ pre, pre <+: lines.flatten ∧ output.length + pre.length ≤ max_size ∧
        out = output ++ pre ++ TRUNCATION_MARKER_BYTES) := by
  intro lines
  induction lines with
  | nil =>
    intro output out flag houtlen h
    simp only [read_and_truncate_go, Option.some.injEq, Prod.mk.injEq] at h
    obtain ⟨ho, hf⟩ := h
    subst ho hf
    constructor
    · intro _
      simp
    · intro hgt
      simp at hgt
      omega
  | cons line rest ih =>
    intro output out flag houtlen h
    simp only [read_and_truncate_go] at h
    by_cases hbig : output.length + line.length > max_size
    · rw [if_pos hbig] at h
      have hflat : (line :: rest).flatten.length = line.length + rest.flatten.length := by
        simp [List.flatten_cons]
      constructor
      · intro hle
        exfalso
        omega
      · intro _
        by_cases hrem : max_size - output.length > 0
        · rw [if_pos hrem] at h
          by_cases hcb :
              is_char_boundary line (min (max_size - output.length) line.length) = true
          · rw [if_pos hcb] at h
            simp only [Option.some.injEq, Prod.mk.injEq] at h
            obtain ⟨ho, hf⟩ := h
            subst ho hf
            refine ⟨rfl, line.take (min (max_size - output.length) line.length), ?_, ?_, rfl⟩
            · exact (List.take_prefix _ _).trans
                (by rw [List.flatten_cons]; exact List.prefix_append _ _)
            · have := List.length_take (min (max_size - output.length) line.length) line
              omega
          · rw [if_neg hcb] at h
            exact absurd h (by simp)
        · rw [if_neg hrem] at h
          simp only [Option.some.injEq, Prod.mk.injEq] at h
          obtain ⟨ho, hf⟩ := h
          subst ho hf
          exact ⟨rfl, [], List.nil_prefix, by simpa using houtlen, by simp⟩
    · rw [if_neg hbig] at h
      have houtlen' : (output ++ line).length ≤ max_size := by
        simp only [List.length_append]
        omega
      have IH := ih (output ++ line) out flag houtlen' h
      have hflat : (line :: rest).flatten.length = line.length + rest.flatten.length := by
        simp [List.flatten_cons]
      constructor
      · intro hle
        have h1 := IH.1 (by simp only [List.length_append]; omega)
        refine ⟨?_, h1.2⟩
        rw [h1.1, List.flatten_cons, List.append_assoc]
      · intro hgt
        obtain ⟨hflag, pre, hpre, hlen, hout⟩ :=
          IH.2 (by simp only [List.length_append]; omega)
        obtain ⟨u, hu⟩ := hpre
        refine ⟨hflag, line ++ pre, ⟨u, ?_⟩, ?_, ?_⟩
        · rw [List.flatten_cons, List.append_assoc, hu]
        · simp only [List.length_append] at hlen ⊢
          omega
        · rw [hout]
          simp [List.append_assoc]

/-- C2 (amended): whenever `read_and_truncate` returns (that is, whenever the
byte cut does not split a multi-byte character, see C9): a stream whose
content exceeds `N` bytes yields `truncated = true` and a buffer of length at
most `N` plus the marker length, consisting of an at-most-`N`-byte prefix of
the content with the truncation marker appended exactly once at its end (so
the marker occurs at least once; it occurs more than once only when the
preserved content itself contains marker text, see the counterexample); a
stream whose content is at most `N` bytes is returned unchanged with
`truncated = false`. -/
theorem read_and_truncate_spec (lines : List (List Nat)) (N : Nat) (out : List Nat) (flag : Bool)
    (h : read_and_truncate lines N = some (out, flag)) :
    (lines.flatten.length ≤ N → out = lines.flatten ∧ flag = false) ∧
    (N < lines.flatten.length →
      flag = true ∧
      out.length ≤ N + TRUNCATION_MARKER_BYTES.length ∧
      1 ≤ countOccur TRUNCATION_MARKER_BYTES out ∧
      ∃ pre, pre <+: lines.flatten ∧ pre.length ≤ N ∧
        out = pre ++ TRUNCATION_MARKER_BYTES) := by
  have hg := read_and_truncate_go_spec N lines [] out flag (by simp) h
  constructor
  · intro hle
    have h1 := hg.1 (by simpa using hle)
    exact ⟨by simpa using h1.1, h1.2⟩
  · intro hgt
    obtain ⟨hflag, pre, hpre, hlen, hout⟩ := hg.2 (by simpa using hgt)
    have hout' : out = pre ++ TRUNCATION_MARKER_BYTES := by simpa using hout
    refine ⟨hflag, ?_, ?_, pre, hpre, by simpa using hlen, hout'⟩
    · rw [hout']
      simp only [List.length_append]
      simp only [List.length_nil] at hlen
      omega
    · rw [hout']
      exact one_le_countOccur_append _ _

/-- C2, the claim as frozen, is refuted at a concrete stream: with
`max_size = 28` (the marker's byte length) and content
`"\n" ++ "... [output truncated] ...\n" ++ "x\n"` (30 bytes, so truncation
occurs), the preserved 28-byte prefix is itself exactly the marker text, and
the returned buffer contains the marker twice, not exactly once. -/
theorem read_and_truncate_marker_twice :
    read_and_truncate truncCexLines 28 =
      some (TRUNCATION_MARKER_BYTES ++ TRUNCATION_MARKER_BYTES, true) ∧
    28 < truncCexLines.flatten.length ∧
    countOccur TRUNCATION_MARKER_BYTES
      (TRUNCATION_MARKER_BYTES ++ TRUNCATION_MARKER_BYTES) = 2 := by
  refine ⟨by decide, by decide, by decide⟩

theorem read_and_truncate_spec_witness :
    read_and_truncate [[104, 105, 10], [121, 111, 10]] 4 =
      some ([104, 105, 10, 121] ++ TRUNCATION_MARKER_BYTES, true) ∧
    4 < ([[104, 105, 10], [121, 111, 10]] : List (List Nat)).flatten.length ∧
    (true = true ∧
      ([104, 105, 10, 121] ++ TRUNCATION_MARKER_BYTES).length ≤
        4 + TRUNCATION_MARKER_BYTES.length ∧
      1 ≤ countOccur TRUNCATION_MARKER_BYTES ([104, 105, 10, 121] ++ TRUNCATION_MARKER_BYTES) ∧
      ∃ pre, pre <+: ([[104, 105, 10], [121, 111, 10]] : List (List Nat)).flatten ∧
        pre.length ≤ 4 ∧
        [104, 105, 10, 121] ++ TRUNCATION_MARKER_BYTES = pre ++ TRUNCATION_MARKER_BYTES) :=
  ⟨by decide, by decide,
    (read_and_truncate_spec [[104, 105, 10], [121, 111, 10]] 4
        ([104, 105, 10, 121] ++ TRUNCATION_MARKER_BYTES) true (by decide)).2 (by decide)⟩

/-! ## C5: `required` is false for defaulted and variadic arguments -/

theorem matchArgAt_required (s : List Char) (pre : String) (a : TaskArg)
    (rest : {r : List Char // r.length < s.length})
    (h : matchArgAt s = some (pre, a, rest)) :
    a.required = (pre.isEmpty && a.default.isNone) := by
  match s with
  | [] => simp [matchArgAt] at h
  | c :: cs =>
    simp only [matchArgAt] at h
    split at h
    · split at h
      · obtain ⟨rfl, rfl, rfl⟩ := h
        rfl
      · simp at h
    · split at h
      · obtain ⟨rfl, rfl, rfl⟩ := h
        rfl
      · simp at h

theorem scanArgsF_default_not_required (fuel : Nat) :
    ∀ s, ∀ a ∈ scanArgsF fuel s, a.default.isSome = true → a.required = false := by
  induction fuel with
  | zero => intro s; simp [scanArgsF]
  | succ fuel ih =>
    intro s a ha hd
    match s with
    | [] => simp [scanArgsF] at ha
    | c :: cs =>
      rw [scanArgsF] at ha
      rcases hm : matchArgAt (c :: cs) with _ | ⟨pre, arg, rest⟩
      · rw [hm] at ha
        exact ih cs a ha hd
      · rw [hm] at ha
        rcases List.mem_cons.mp ha with rfl | ha'
        · rw [matchArgAt_required _ _ _ _ hm]
          cases hdf : a.default with
          | none => rw [hdf] at hd; simp at hd
          | some v => simp [hdf]
        · exact ih rest.1 a ha' hd

theorem scanArgs_default_not_required (s : List Char) :
    ∀ a ∈ scanArgs s, a.default.isSome = true → a.required = false :=
  fun a ha => scanArgsF_default_not_required (s.length + 1) s a ha

theorem parse_args_default_not_required (s : String) :
    ∀ a ∈ parse_args_from_list s, a.default.isSome = true → a.required = false := by
  intro a ha
  unfold parse_args_from_list at ha
  split at ha
  · simp at ha
  · exact scanArgs_default_not_required _ a ha

theorem dumpParam_invariant (p : JustParameter) :
    (p.default.isSome = true ∨ p.kind = "Plus" ∨ p.kind = "Star") →
    (dumpParamToArg p).required = false := by
  intro hp
  unfold dumpParamToArg
  rcases hp with h | h | h
  · cases hd : p.default with
    | none => rw [hd] at h; simp at h
    | some v => simp [hd]
  · simp [h]
  · simp [h]

theorem parse_dump_json_default_not_required (recipes : List (String × JustRecipe)) :
    ∀ t ∈ parse_dump_json recipes, ∀ a ∈ t.arguments,
      a.default.isSome = true → a.required = false := by
  intro t ht a ha hd
  unfold parse_dump_json sortTasksByName at ht
  rw [List.mem_mergeSort] at ht
  obtain ⟨nr, _, rfl⟩ := List.mem_map.mp ht
  obtain ⟨p, _, rfl⟩ := List.mem_map.mp ha
  refine dumpParam_invariant p (Or.inl ?_)
  unfold dumpParamToArg at hd
  cases hdf : p.default with
  | none => rw [hdf] at hd; simp at hd
  | some v => rfl

theorem extract_make_args_not_required (lines : List String) (i : Nat) :
    ∀ a ∈ extract_make_args lines i, a.required = false := by
  intro a ha
  unfold extract_make_args at ha
  obtain ⟨nm, _, rfl⟩ := List.mem_map.mp ha
  rfl

theorem parseJustfileGo_args (lines : List String) (rest : List String) :
    ∀ i seen acc,
    (∀ t ∈ acc, ∀ a ∈ t.arguments, a.default.isSome = true → a.required = false) →
    ∀ t ∈ parseJustfileGo lines rest i seen acc, ∀ a ∈ t.arguments,
      a.default.isSome = true → a.required = false := by
  induction rest with
  | nil =>
    intro i seen acc hacc
    simpa [parseJustfileGo] using hacc
  | cons line rest ih =>
    intro i seen acc hacc
    rw [parseJustfileGo]
    split
    · split
      · exact ih _ _ _ hacc
      · apply ih
        intro t ht
        rcases List.mem_append.mp ht with h | h
        · exact hacc t h
        · simp only [List.mem_singleton] at h
          subst h
          intro a ha hd
          exact parse_args_default_not_required _ a ha hd
    · exact ih _ _ _ hacc

theorem foldl_parseListStep_args (ls : List String) :
    ∀ acc,
    (∀ t ∈ acc, ∀ a ∈ t.arguments, a.default.isSome = true → a.required = false) →
    ∀ t ∈ ls.foldl parseListStep acc, ∀ a ∈ t.arguments,
      a.default.isSome = true → a.required = false := by
  induction ls with
  | nil =>
    intro acc hacc
    simpa using hacc
  | cons line ls ih =>
    intro acc hacc
    rw [List.foldl_cons]
    apply ih
    intro t ht
    unfold parseListStep at ht
    split at ht
    · exact hacc t ht
    · split at ht
      · rcases List.mem_append.mp ht with h | h
        · exact hacc t h
        · simp only [List.mem_singleton] at h
          subst h
          intro a ha hd
          exact parse_args_default_not_required _ a ha hd
      · exact hacc t ht

/-- C5: every `TaskArgument` produced by any discovery strategy obeys the
invariant: a default or a variadic form forces `required = false`.  In order:
the `--list` argument parser (shared by the textual-listing strategy and the
direct justfile parse); a variadic `+`/`*` match of that parser; a dump
parameter with a default or kind `Plus`/`Star`; every argument of the dump
strategy's tasks; every Make recipe variable (always optional); every
argument of the direct justfile parse; every argument of the textual-listing
parse. -/
theorem task_arg_required_invariant :
    (∀ s : String, ∀ a ∈ parse_args_from_list s,
      a.default.isSome = true → a.required = false) ∧
    (∀ (s : List Char) (pre : String) (a : TaskArg)
        (rest : {r : List Char // r.length < s.length}),
      matchArgAt s = some (pre, a, rest) → (pre = "+" ∨ pre = "*") → a.required = false) ∧
    (∀ p : JustParameter, (p.default.isSome = true ∨ p.kind = "Plus" ∨ p.kind = "Star") →
      (dumpParamToArg p).required = false) ∧
    (∀ recipes : List (String × JustRecipe), ∀ t ∈ parse_dump_json recipes,
      ∀ a ∈ t.arguments, a.default.isSome = true → a.required = false) ∧
    (∀ (lines : List String) (i : Nat), ∀ a ∈ extract_make_args lines i,
      a.required = false) ∧
    (∀ lines : List String, ∀ t ∈ parse_justfile lines, ∀ a ∈ t.arguments,
      a.default.isSome = true → a.required = false) ∧
    (∀ output : String, ∀ t ∈ parse_list_output output, ∀ a ∈ t.arguments,
      a.default.isSome = true → a.required = false) := by
  refine ⟨parse_args_default_not_required, ?_, dumpParam_invariant,
    parse_dump_json_default_not_required, extract_make_args_not_required, ?_, ?_⟩
  · intro s pre a rest h hpre
    rw [matchArgAt_required _ _ _ _ h]
    rcases hpre with rfl | rfl
    · simp [show ("+" : String).isEmpty = false from by decide]
    · simp [show ("*" : String).isEmpty = false from by decide]
  · intro lines t ht
    unfold parse_justfile sortTasksByName at ht
    rw [List.mem_mergeSort] at ht
    exact parseJustfileGo_args lines lines 0 [] [] (by simp) t ht
  · intro output t ht
    unfold parse_list_output at ht
    exact foldl_parseListStep_args _ [] (by simp) t ht

theorem task_arg_required_invariant_witness :
    (({ name := "target", required := false, default := some "release",
        description := none } : TaskArg) ∈ parse_args_from_list "target='release'" ∧
      (({ name := "target", required := false, default := some "release",
          description := none } : TaskArg).default.isSome = true) ∧
      ({ name := "target", required := false, default := some "release",
         description := none } : TaskArg).required = false) ∧
    (dumpParamToArg { name := "paths", default := none, kind := "Plus" }).required = false :=
  ⟨⟨by decide, by decide,
      task_arg_required_invariant.1 "target='release'"
        { name := "target", required := false, default := some "release", description := none }
        (by decide) (by decide)⟩,
    task_arg_required_invariant.2.2.1 { name := "paths", default := none, kind := "Plus" }
      (Or.inr (Or.inl rfl))⟩

/-! ## C6 / C7: duplicate handling and the target-membership characterisation
of the direct build-file parses -/

theorem contains_eq_true_iff {l : List String} {a : String} : l.contains a = true ↔ a ∈ l :=
  List.elem_iff

theorem parseMakefileGo_name_mem (lines : List String) (nm : String) :
    ∀ (rest : List String) (seen : List String) (acc : List TaskInfo) (i : Nat),
    ((∃ t ∈ parseMakefileGo lines rest i seen acc, t.name = nm) ↔
      ((∃ t ∈ acc, t.name = nm) ∨
        (nm ∉ seen ∧ ∃ line ∈ rest, yieldsTarget nm line = true))) := by
  intro rest
  induction rest with
  | nil =>
    intro seen acc i
    simp [parseMakefileGo]
  | cons line rest ih =>
    intro seen acc i
    rw [parseMakefileGo]
    rw [List.exists_mem_cons_iff (fun l => yieldsTarget nm l = true) line rest]
    split
    next nm2 after heq =>
      have hyt : yieldsTarget nm line =
          (nm2 == nm && !afterNameAssign after && !isVarAssignLine line.toList &&
            !nm2.startsWith ".") := by
        rw [yieldsTarget, heq]
      by_cases h1 : afterNameAssign after = true
      · rw [if_pos h1, ih]
        have hyt' : yieldsTarget nm line = false := by rw [hyt, h1]; simp
        rw [hyt']
        simp
      · rw [if_neg h1]
        by_cases h2 : isVarAssignLine line.toList = true
        · rw [if_pos h2, ih]
          have hyt' : yieldsTarget nm line = false := by rw [hyt, h2]; simp
          rw [hyt']
          simp
        · rw [if_neg h2]
          by_cases h3 : seen.contains nm2 = true
          · rw [if_pos h3, ih]
            by_cases hnm : nm2 = nm
            · subst hnm
              have hmem : nm2 ∈ seen := contains_eq_true_iff.mp h3
              simp [hmem]
            · have hbeq : (nm2 == nm) = false := by simp [hnm]
              have hyt' : yieldsTarget nm line = false := by rw [hyt, hbeq]; simp
              rw [hyt']
              simp
          · rw [if_neg h3]
            by_cases h4 : nm2.startsWith "." = true
            · rw [if_pos h4, ih]
              have hyt' : yieldsTarget nm line = false := by rw [hyt, h4]; simp
              rw [hyt']
              simp
            · rw [if_neg h4, ih]
              by_cases hnm : nm2 = nm
              · subst hnm
                simp only [Bool.not_eq_true] at h1 h2 h4
                have hyt' : yieldsTarget nm2 line = true := by
                  rw [hyt, h1, h2, h4]
                  simp
                have hns : nm2 ∉ seen := fun hm => h3 (contains_eq_true_iff.mpr hm)
                rw [hyt']
                constructor
                · intro _
                  exact Or.inr ⟨hns, Or.inl rfl⟩
                · intro _
                  refine Or.inl ⟨_, List.mem_append.mpr (Or.inr (List.mem_singleton.mpr rfl)), ?_⟩
                  rfl
              · have hnm' : ¬ nm = nm2 := fun e => hnm e.symm
                have hbeq : (nm2 == nm) = false := by simp [hnm]
                have hyt' : yieldsTarget nm line = false := by rw [hyt, hbeq]; simp
                rw [hyt']
                simp only [List.mem_append, List.mem_cons, List.not_mem_nil, or_false,
                  Bool.false_eq_true, false_or]
                constructor
                · rintro (⟨t, ht | rfl, hn⟩ | ⟨hs, hr⟩)
                  · exact Or.inl ⟨t, ht, hn⟩
                  · exact absurd hn hnm
                  · exact Or.inr ⟨fun hm => hs (Or.inr hm), hr⟩
                · rintro (⟨t, ht, hn⟩ | ⟨hs, hr⟩)
                  · exact Or.inl ⟨t, Or.inl ht, hn⟩
                  · exact Or.inr ⟨fun hm => hm.elim hnm' hs, hr⟩
    next heq =>
      have hyt : yieldsTarget nm line = false := by
        rw [yieldsTarget, heq]
      rw [ih, hyt]
      simp

/-- C7: a name appears among the targets of the direct Makefile parse exactly
when some line of the file matches `TARGET_RE` with that name and is excluded
neither as a variable assignment (`:=`, `?=`, `+=`, `::=` tests) nor as a
dot-prefixed special target; such a line is never excluded (duplicate
definition lines collapse onto one entry, which carries the name all the
same). -/
theorem parse_makefile_target_mem (lines : List String) (nm : String) :
    (∃ t ∈ parse_makefile lines, t.name = nm) ↔
      ∃ line ∈ lines, yieldsTarget nm line = true := by
  unfold parse_makefile sortTasksByName
  constructor
  · rintro ⟨t, ht, hn⟩
    have := (parseMakefileGo_name_mem lines nm lines [] [] 0).mp
      ⟨t, List.mem_mergeSort.mp ht, hn⟩
    simpa using this
  · intro h
    obtain ⟨t, ht, hn⟩ := (parseMakefileGo_name_mem lines nm lines [] [] 0).mpr
      (Or.inr ⟨by simp, h⟩)
    exact ⟨t, List.mem_mergeSort.mpr ht, hn⟩

theorem parseMakefileGo_nodup (lines : List String) :
    ∀ (rest : List String) (seen : List String) (acc : List TaskInfo) (i : Nat),
    ((acc.map TaskInfo.name).Nodup) →
    (∀ t ∈ acc, seen.contains t.name = true) →
    ((parseMakefileGo lines rest i seen acc).map TaskInfo.name).Nodup := by
  intro rest
  induction rest with
  | nil =>
    intro seen acc i h1 _
    simpa [parseMakefileGo] using h1
  | cons line rest ih =>
    intro seen acc i h1 h2
    rw [parseMakefileGo]
    split
    next nm2 after heq =>
      by_cases g1 : afterNameAssign after = true
      · rw [if_pos g1]; exact ih _ _ _ h1 h2
      · rw [if_neg g1]
        by_cases g2 : isVarAssignLine line.toList = true
        · rw [if_pos g2]; exact ih _ _ _ h1 h2
        · rw [if_neg g2]
          by_cases g3 : seen.contains nm2 = true
          · rw [if_pos g3]; exact ih _ _ _ h1 h2
          · rw [if_neg g3]
            by_cases g4 : nm2.startsWith "." = true
            · rw [if_pos g4]; exact ih _ _ _ h1 h2
            · rw [if_neg g4]
              apply ih
              · rw [List.map_append]
                rw [List.nodup_append]
                refine ⟨h1, by simp, ?_⟩
                intro x hx hx2
                simp at hx2
                subst hx2
                obtain ⟨t, ht, hn⟩ := List.mem_map.mp hx
                exact g3 (by rw [← hn]; exact h2 t ht)
              · intro t ht
                rcases List.mem_append.mp ht with h | h
                · have := h2 t h
                  refine contains_eq_true_iff.mpr ?_
                  exact List.mem_cons_of_mem _ (contains_eq_true_iff.mp this)
                · simp at h
                  subst h
                  exact contains_eq_true_iff.mpr (List.mem_cons_self _ _)
    next heq =>
      exact ih _ _ _ h1 h2

theorem parseJustfileGo_nodup (lines : List String) :
    ∀ (rest : List String) (seen : List String) (acc : List TaskInfo) (i : Nat),
    ((acc.map TaskInfo.name).Nodup) →
    (∀ t ∈ acc, seen.contains t.name = true) →
    ((parseJustfileGo lines rest i seen acc).map TaskInfo.name).Nodup := by
  intro rest
  induction rest with
  | nil =>
    intro seen acc i h1 _
    simpa [parseJustfileGo] using h1
  | cons line rest ih =>
    intro seen acc i h1 h2
    rw [parseJustfileGo]
    split
    next nm2 argsStr heq =>
      by_cases g3 : seen.contains nm2 = true
      · rw [if_pos g3]; exact ih _ _ _ h1 h2
      · rw [if_neg g3]
        apply ih
        · rw [List.map_append, List.nodup_append]
          refine ⟨h1, by simp, ?_⟩
          intro x hx hx2
          simp at hx2
          subst hx2
          obtain ⟨t, ht, hn⟩ := List.mem_map.mp hx
          exact g3 (by rw [← hn]; exact h2 t ht)
        · intro t ht
          rcases List.mem_append.mp ht with h | h
          · exact contains_eq_true_iff.mpr
              (List.mem_cons_of_mem _ (contains_eq_true_iff.mp (h2 t h)))
          · simp at h
            subst h
            exact contains_eq_true_iff.mpr (List.mem_cons_self _ _)
    next heq =>
      exact ih _ _ _ h1 h2

/-- C6 (amended): the direct build-file parses deduplicate — the Makefile
parse and the justfile parse return no two entries with the same name, thanks
to their seen-sets.  The Just textual-listing parse keeps no seen-set, and
the `Commands:`-section branch of the script help-text parse pushes matches
with no duplicate check; both are refuted by the counterexample. -/
theorem parse_build_file_names_nodup (lines : List String) :
    ((parse_makefile lines).map TaskInfo.name).Nodup ∧
    ((parse_justfile lines).map TaskInfo.name).Nodup := by
  constructor
  · unfold parse_makefile sortTasksByName
    refine (((List.mergeSort_perm _ _).map TaskInfo.name).nodup_iff).mpr ?_
    exact parseMakefileGo_nodup lines lines [] [] 0 (by simp) (by simp)
  · unfold parse_justfile sortTasksByName
    refine (((List.mergeSort_perm _ _).map TaskInfo.name).nodup_iff).mpr ?_
    exact parseJustfileGo_nodup lines lines [] [] 0 (by simp) (by simp)

/-- C6, the claim as frozen, is refuted at two concrete inputs: on the
`just --list` output `"    dup\n    dup"` the textual-listing parse returns
two entries both named `dup` (it pushes every matching line with no
seen-set), and on the help text `"Commands:\n  dup  x\n  dup  y"` the
script help-text parse does the same (its `Commands:` branch pushes every
`CMD_LINE_RE` match with no duplicate check; only the fallback pattern
deduplicates). -/
theorem textual_parses_duplicate_names :
    ((parse_list_output "    dup\n    dup").map TaskInfo.name = ["dup", "dup"] ∧
      ¬ ((parse_list_output "    dup\n    dup").map TaskInfo.name).Nodup) ∧
    ¬ ((parse_help_output "Commands:\n  dup  x\n  dup  y").map TaskInfo.name).Nodup := by
  refine ⟨⟨by decide, by decide⟩, ?_⟩
  intro hnd
  have h1 : parse_help_output "Commands:\n  dup  x\n  dup  y" =
      sortTasksByName
        [{ name := "dup", description := some "x", arguments := [] },
         { name := "dup", description := some "y", arguments := [] }] := rfl
  rw [h1] at hnd
  have hperm :
      ((sortTasksByName
        [{ name := "dup", description := some "x", arguments := [] },
         { name := "dup", description := some "y", arguments := [] }]).map
          TaskInfo.name).Nodup ↔
      (([{ name := "dup", description := some "x", arguments := [] },
         { name := "dup", description := some "y", arguments := [] }] :
          List TaskInfo).map TaskInfo.name).Nodup :=
    ((List.mergeSort_perm _ _).map TaskInfo.name).nodup_iff
  exact absurd (hperm.mp hnd) (by decide)

/-! ## C4: the detection invariant -/

theorem any_eq_find?_isSome {α : Type} (p : α → Bool) (l : List α) :
    l.any p = (l.find? p).isSome := by
  induction l with
  | nil => rfl
  | cons x t ih =>
    cases hp : p x
    · rw [List.any_cons, hp, List.find?_cons_of_neg _ (by simp [hp]), ih]
      simp
    · rw [List.any_cons, hp, List.find?_cons_of_pos _ hp]
      simp

theorem option_or_none {α : Type} (o : Option α) : o.or none = o := by
  cases o <;> rfl

theorem option_or_assoc {α : Type} (a b c : Option α) :
    (a.or b).or c = a.or (b.or c) := by
  cases a <;> rfl

theorem check_makefile_detected (fs : FS) (r : DetectionResult) :
    (check_makefile fs r).detected =
      r.detected.or (if makeEvidence fs = true then some RunnerType.make else none) := by
  unfold check_makefile
  cases hf : MAKEFILE_NAMES.find? fs.isFile with
  | none =>
    have hev : makeEvidence fs = false := by
      unfold makeEvidence
      rw [any_eq_find?_isSome, hf]
      rfl
    rw [hev]
    simp [option_or_none]
  | some name =>
    have hev : makeEvidence fs = true := by
      unfold makeEvidence
      rw [any_eq_find?_isSome, hf]
      rfl
    rw [hev]
    cases r.detected <;> rfl

theorem check_justfile_detected (fs : FS) (r : DetectionResult) :
    (check_justfile fs r).detected =
      r.detected.or (if justEvidence fs = true then some RunnerType.just else none) := by
  unfold check_justfile
  cases hf : JUSTFILE_NAMES.find? fs.isFile with
  | none =>
    have hev : justEvidence fs = false := by
      unfold justEvidence
      rw [any_eq_find?_isSome, hf]
      rfl
    rw [hev]
    simp [option_or_none]
  | some name =>
    have hev : justEvidence fs = true := by
      unfold justEvidence
      rw [any_eq_find?_isSome, hf]
      rfl
    rw [hev]
    cases r.detected <;> rfl

theorem check_scripts_detected (fs : FS) (cands : List String) :
    ∀ r : DetectionResult,
    (check_scripts fs cands r).detected =
      r.detected.or ((cands.find? (scriptOk fs)).map fun c =>
        RunnerType.script (scriptDisplayPath c)) := by
  induction cands with
  | nil =>
    intro r
    rw [show check_scripts fs [] r = r from rfl]
    simp [option_or_none]
  | cons c cands ih =>
    intro r
    rw [show check_scripts fs (c :: cands) r =
      check_scripts fs cands (checkScriptStep fs r c) from rfl]
    cases hok : scriptOk fs c with
    | false =>
      rw [List.find?_cons_of_neg _ (by simp [hok])]
      have hstep : checkScriptStep fs r c = r := by
        unfold checkScriptStep
        rw [hok]
        simp
      rw [hstep, ih r]
    | true =>
      rw [List.find?_cons_of_pos _ hok, ih (checkScriptStep fs r c)]
      have hd : (checkScriptStep fs r c).detected =
          some (r.detected.getD (RunnerType.script (scriptDisplayPath c))) := by
        unfold checkScriptStep
        rw [hok]
        rfl
      rw [hd]
      cases r.detected <;> rfl

theorem check_makefile_avail_mono (fs : FS) (r : DetectionResult) :
    ∀ k ∈ r.available, k ∈ (check_makefile fs r).available := by
  unfold check_makefile
  split
  · intro k hk
    exact List.mem_append_left _ hk
  · intro k hk
    exact hk

theorem check_justfile_avail_mono (fs : FS) (r : DetectionResult) :
    ∀ k ∈ r.available, k ∈ (check_justfile fs r).available := by
  unfold check_justfile
  split
  · intro k hk
    exact List.mem_append_left _ hk
  · intro k hk
    exact hk

theorem checkScriptStep_avail_mono (fs : FS) (r : DetectionResult) (c : String) :
    ∀ k ∈ r.available, k ∈ (checkScriptStep fs r c).available := by
  unfold checkScriptStep
  split
  · intro k hk
    exact List.mem_append_left _ hk
  · intro k hk
    exact hk

theorem check_scripts_avail_mono (fs : FS) (cands : List String) :
    ∀ r : DetectionResult, ∀ k ∈ r.available, k ∈ (check_scripts fs cands r).available := by
  induction cands with
  | nil => intro r k hk; exact hk
  | cons c cands ih =>
    intro r k hk
    exact ih (checkScriptStep fs r c) k (checkScriptStep_avail_mono fs r c k hk)

theorem detectStep_avail_mono (fs : FS) (cfg : Config) (r : DetectionResult) (e : String) :
    ∀ k ∈ r.available, k ∈ (detectStep fs cfg r e).available := by
  unfold detectStep
  split
  · exact check_makefile_avail_mono fs r
  · split
    · exact check_justfile_avail_mono fs r
    · split
      · exact check_scripts_avail_mono fs cfg.scripts r
      · intro k hk
        exact hk

theorem foldl_detectStep_avail_mono (fs : FS) (cfg : Config) :
    ∀ (entries : List String) (r : DetectionResult),
    ∀ k ∈ r.available, k ∈ (entries.foldl (detectStep fs cfg) r).available := by
  intro entries
  induction entries with
  | nil => intro r k hk; exact hk
  | cons e entries ih =>
    intro r k hk
    rw [List.foldl_cons]
    exact ih _ k (detectStep_avail_mono fs cfg r e k hk)

theorem check_makefile_adds (fs : FS) (r : DetectionResult) (h : makeEvidence fs = true) :
    RunnerType.make ∈ (check_makefile fs r).available := by
  unfold check_makefile
  cases hf : MAKEFILE_NAMES.find? fs.isFile with
  | none =>
    exfalso
    unfold makeEvidence at h
    rw [any_eq_find?_isSome, hf] at h
    simp at h
  | some name =>
    exact List.mem_append_right _ (List.mem_singleton.mpr rfl)

theorem check_justfile_adds (fs : FS) (r : DetectionResult) (h : justEvidence fs = true) :
    RunnerType.just ∈ (check_justfile fs r).available := by
  unfold check_justfile
  cases hf : JUSTFILE_NAMES.find? fs.isFile with
  | none =>
    exfalso
    unfold justEvidence at h
    rw [any_eq_find?_isSome, hf] at h
    simp at h
  | some name =>
    exact List.mem_append_right _ (List.mem_singleton.mpr rfl)

theorem check_scripts_adds (fs : FS) (c : String) (hok : scriptOk fs c = true) :
    ∀ cands : List String, c ∈ cands → ∀ r : DetectionResult,
    RunnerType.script (scriptDisplayPath c) ∈ (check_scripts fs cands r).available := by
  intro cands
  induction cands with
  | nil => intro hc; cases hc
  | cons d cands ih =>
    intro hc r
    rw [show check_scripts fs (d :: cands) r =
      check_scripts fs cands (checkScriptStep fs r d) from rfl]
    rcases List.mem_cons.mp hc with rfl | hc'
    · apply check_scripts_avail_mono
      unfold checkScriptStep
      rw [hok]
      exact List.mem_append_right _ (List.mem_singleton.mpr rfl)
    · exact ih hc' (checkScriptStep fs r d)

theorem check_makefile_avail_evidence (fs : FS) (cfg : Config) (r : DetectionResult)
    (hr : ∀ k ∈ r.available, rtEvidence fs cfg k = true) :
    ∀ k ∈ (check_makefile fs r).available, rtEvidence fs cfg k = true := by
  unfold check_makefile
  cases hf : MAKEFILE_NAMES.find? fs.isFile with
  | none => exact hr
  | some name =>
    intro k hk
    rcases List.mem_append.mp hk with h | h
    · exact hr k h
    · rw [List.mem_singleton.mp h]
      show makeEvidence fs = true
      unfold makeEvidence
      rw [any_eq_find?_isSome, hf]
      rfl

theorem check_justfile_avail_evidence (fs : FS) (cfg : Config) (r : DetectionResult)
    (hr : ∀ k ∈ r.available, rtEvidence fs cfg k = true) :
    ∀ k ∈ (check_justfile fs r).available, rtEvidence fs cfg k = true := by
  unfold check_justfile
  cases hf : JUSTFILE_NAMES.find? fs.isFile with
  | none => exact hr
  | some name =>
    intro k hk
    rcases List.mem_append.mp hk with h | h
    · exact hr k h
    · rw [List.mem_singleton.mp h]
      show justEvidence fs = true
      unfold justEvidence
      rw [any_eq_find?_isSome, hf]
      rfl

theorem check_scripts_avail_evidence (fs : FS) (cfg : Config) :
    ∀ cands : List String, (∀ c ∈ cands, c ∈ cfg.scripts) →
    ∀ r : DetectionResult, (∀ k ∈ r.available, rtEvidence fs cfg k = true) →
    ∀ k ∈ (check_scripts fs cands r).available, rtEvidence fs cfg k = true := by
  intro cands
  induction cands with
  | nil => intro _ r hr; exact hr
  | cons d cands ih =>
    intro hsub r hr
    rw [show check_scripts fs (d :: cands) r =
      check_scripts fs cands (checkScriptStep fs r d) from rfl]
    refine ih (fun c hc => hsub c (List.mem_cons_of_mem _ hc)) _ ?_
    intro k hk
    unfold checkScriptStep at hk
    by_cases hok : scriptOk fs d = true
    · rw [if_pos hok] at hk
      rcases List.mem_append.mp hk with h | h
      · exact hr k h
      · rw [List.mem_singleton.mp h]
        show cfg.scripts.any _ = true
        refine List.any_eq_true.mpr ⟨d, hsub d (List.mem_cons_self _ _), ?_⟩
        rw [hok]
        simp
    · rw [if_neg hok] at hk
      exact hr k hk

theorem detectStep_avail_evidence (fs : FS) (cfg : Config) (r : DetectionResult) (e : String)
    (hr : ∀ k ∈ r.available, rtEvidence fs cfg k = true) :
    ∀ k ∈ (detectStep fs cfg r e).available, rtEvidence fs cfg k = true := by
  unfold detectStep
  split
  · exact check_makefile_avail_evidence fs cfg r hr
  · split
    · exact check_justfile_avail_evidence fs cfg r hr
    · split
      · exact check_scripts_avail_evidence fs cfg cfg.scripts (fun c hc => hc) r hr
      · exact hr

theorem foldl_detectStep_avail_evidence (fs : FS) (cfg : Config) :
    ∀ (entries : List String) (r : DetectionResult),
    (∀ k ∈ r.available, rtEvidence fs cfg k = true) →
    ∀ k ∈ (entries.foldl (detectStep fs cfg) r).available, rtEvidence fs cfg k = true := by
  intro entries
  induction entries with
  | nil => intro r hr; exact hr
  | cons e entries ih =>
    intro r hr
    rw [List.foldl_cons]
    exact ih _ (detectStep_avail_evidence fs cfg r e hr)

theorem check_makefile_detInv (fs : FS) (r : DetectionResult)
    (h : ∀ k, r.detected = some k → k ∈ r.available) :
    ∀ k, (check_makefile fs r).detected = some k → k ∈ (check_makefile fs r).available := by
  unfold check_makefile
  cases hf : MAKEFILE_NAMES.find? fs.isFile with
  | none => exact h
  | some name =>
    intro k hk
    simp only [Option.some.injEq] at hk
    cases hd : r.detected with
    | none =>
      rw [hd] at hk
      simp at hk
      rw [← hk]
      exact List.mem_append_right _ (List.mem_singleton.mpr rfl)
    | some k0 =>
      rw [hd] at hk
      simp at hk
      rw [← hk]
      exact List.mem_append_left _ (h k0 hd)

theorem check_justfile_detInv (fs : FS) (r : DetectionResult)
    (h : ∀ k, r.detected = some k → k ∈ r.available) :
    ∀ k, (check_justfile fs r).detected = some k → k ∈ (check_justfile fs r).available := by
  unfold check_justfile
  cases hf : JUSTFILE_NAMES.find? fs.isFile with
  | none => exact h
  | some name =>
    intro k hk
    simp only [Option.some.injEq] at hk
    cases hd : r.detected with
    | none =>
      rw [hd] at hk
      simp at hk
      rw [← hk]
      exact List.mem_append_right _ (List.mem_singleton.mpr rfl)
    | some k0 =>
      rw [hd] at hk
      simp at hk
      rw [← hk]
      exact List.mem_append_left _ (h k0 hd)

theorem checkScriptStep_detInv (fs : FS) (r : DetectionResult) (c : String)
    (h : ∀ k, r.detected = some k → k ∈ r.available) :
    ∀ k, (checkScriptStep fs r c).detected = some k →
      k ∈ (checkScriptStep fs r c).available := by
  unfold checkScriptStep
  by_cases hok : scriptOk fs c = true
  · rw [if_pos hok]
    intro k hk
    simp only [Option.some.injEq] at hk
    cases hd : r.detected with
    | none =>
      rw [hd] at hk
      simp at hk
      rw [← hk]
      exact List.mem_append_right _ (List.mem_singleton.mpr rfl)
    | some k0 =>
      rw [hd] at hk
      simp at hk
      rw [← hk]
      exact List.mem_append_left _ (h k0 hd)
  · rw [if_neg hok]
    exact h

theorem check_scripts_detInv (fs : FS) :
    ∀ (cands : List String) (r : DetectionResult),
    (∀ k, r.detected = some k → k ∈ r.available) →
    ∀ k, (check_scripts fs cands r).detected = some k →
      k ∈ (check_scripts fs cands r).available := by
  intro cands
  induction cands with
  | nil => intro r h; exact h
  | cons c cands ih =>
    intro r h
    rw [show check_scripts fs (c :: cands) r =
      check_scripts fs cands (checkScriptStep fs r c) from rfl]
    exact ih _ (checkScriptStep_detInv fs r c h)

theorem detectStep_detInv (fs : FS) (cfg : Config) (r : DetectionResult) (e : String)
    (h : ∀ k, r.detected = some k → k ∈ r.available) :
    ∀ k, (detectStep fs cfg r e).detected = some k → k ∈ (detectStep fs cfg r e).available := by
  unfold detectStep
  split
  · exact check_makefile_detInv fs r h
  · split
    · exact check_justfile_detInv fs r h
    · split
      · exact check_scripts_detInv fs cfg.scripts r h
      · exact h

theorem foldl_detectStep_detInv (fs : FS) (cfg : Config) :
    ∀ (entries : List String) (r : DetectionResult),
    (∀ k, r.detected = some k → k ∈ r.available) →
    ∀ k, (entries.foldl (detectStep fs cfg) r).detected = some k →
      k ∈ (entries.foldl (detectStep fs cfg) r).available := by
  intro entries
  induction entries with
  | nil => intro r h; exact h
  | cons e entries ih =>
    intro r h
    rw [List.foldl_cons]
    exact ih _ (detectStep_detInv fs cfg r e h)

theorem entryEvidence_make (fs : FS) (cfg : Config) :
    entryEvidence fs cfg "make" = makeEvidence fs := by
  unfold entryEvidence
  rw [if_pos rfl]

theorem entryEvidence_just (fs : FS) (cfg : Config) :
    entryEvidence fs cfg "just" = justEvidence fs := by
  unfold entryEvidence
  rw [if_neg (by decide), if_pos rfl]

theorem entryEvidence_script (fs : FS) (cfg : Config) :
    entryEvidence fs cfg "script" = cfg.scripts.any (scriptOk fs) := by
  unfold entryEvidence
  rw [if_neg (by decide), if_neg (by decide), if_pos rfl]

theorem entryEvidence_other (fs : FS) (cfg : Config) (e : String)
    (h1 : ¬ e = "make") (h2 : ¬ e = "just") (h3 : ¬ e = "script") :
    entryEvidence fs cfg e = false := by
  unfold entryEvidence
  rw [if_neg h1, if_neg h2, if_neg h3]

theorem entryDetected_make (fs : FS) (cfg : Config) :
    entryDetected fs cfg "make" = some RunnerType.make := by
  unfold entryDetected
  rw [if_pos rfl]

theorem entryDetected_just (fs : FS) (cfg : Config) :
    entryDetected fs cfg "just" = some RunnerType.just := by
  unfold entryDetected
  rw [if_neg (by decide), if_pos rfl]

theorem entryDetected_script (fs : FS) (cfg : Config) :
    entryDetected fs cfg "script" =
      (cfg.scripts.find? (scriptOk fs)).map fun c =>
        RunnerType.script (scriptDisplayPath c) := by
  unfold entryDetected
  rw [if_neg (by decide), if_neg (by decide), if_pos rfl]

theorem detectStep_make (fs : FS) (cfg : Config) (r : DetectionResult) :
    detectStep fs cfg r "make" = check_makefile fs r := by
  unfold detectStep
  rw [if_pos rfl]

theorem detectStep_just (fs : FS) (cfg : Config) (r : DetectionResult) :
    detectStep fs cfg r "just" = check_justfile fs r := by
  unfold detectStep
  rw [if_neg (by decide), if_pos rfl]

theorem detectStep_script (fs : FS) (cfg : Config) (r : DetectionResult) :
    detectStep fs cfg r "script" = check_scripts fs cfg.scripts r := by
  unfold detectStep
  rw [if_neg (by decide), if_neg (by decide), if_pos rfl]

theorem detectStep_other (fs : FS) (cfg : Config) (r : DetectionResult) (e : String)
    (h1 : ¬ e = "make") (h2 : ¬ e = "just") (h3 : ¬ e = "script") :
    detectStep fs cfg r e = r := by
  unfold detectStep
  rw [if_neg h1, if_neg h2, if_neg h3]

theorem entryDetected_isSome (fs : FS) (cfg : Config) (e : String)
    (h : entryEvidence fs cfg e = true) :
    ∃ x, entryDetected fs cfg e = some x := by
  by_cases h1 : e = "make"
  · subst h1
    exact ⟨RunnerType.make, entryDetected_make fs cfg⟩
  by_cases h2 : e = "just"
  · subst h2
    exact ⟨RunnerType.just, entryDetected_just fs cfg⟩
  by_cases h3 : e = "script"
  · subst h3
    rw [entryEvidence_script, any_eq_find?_isSome] at h
    obtain ⟨c, hc⟩ := Option.isSome_iff_exists.mp h
    exact ⟨RunnerType.script (scriptDisplayPath c), by rw [entryDetected_script, hc]; rfl⟩
  · exact absurd h (by rw [entryEvidence_other fs cfg e h1 h2 h3]; simp)

theorem detectStep_detected (fs : FS) (cfg : Config) (r : DetectionResult) (e : String) :
    (detectStep fs cfg r e).detected = r.detected.or (stepDetected fs cfg e) := by
  by_cases h1 : e = "make"
  · subst h1
    rw [detectStep_make, check_makefile_detected]
    congr 1
  by_cases h2 : e = "just"
  · subst h2
    rw [detectStep_just, check_justfile_detected]
    congr 1
  by_cases h3 : e = "script"
  · subst h3
    rw [detectStep_script, check_scripts_detected]
    congr 1
    unfold stepDetected
    rw [entryEvidence_script, entryDetected_script, any_eq_find?_isSome]
    cases hf : cfg.scripts.find? (scriptOk fs) <;> simp
  · rw [detectStep_other fs cfg r e h1 h2 h3]
    unfold stepDetected
    rw [entryEvidence_other fs cfg e h1 h2 h3]
    simp [option_or_none]

theorem foldl_detectStep_detected (fs : FS) (cfg : Config) :
    ∀ (entries : List String) (r : DetectionResult),
    (entries.foldl (detectStep fs cfg) r).detected =
      r.detected.or (detectedSpecOn fs cfg entries) := by
  intro entries
  induction entries with
  | nil =>
    intro r
    unfold detectedSpecOn
    simp [option_or_none]
  | cons e entries ih =>
    intro r
    rw [List.foldl_cons, ih, detectStep_detected, option_or_assoc]
    congr 1
    unfold detectedSpecOn
    by_cases hev : entryEvidence fs cfg e = true
    · rw [List.find?_cons_of_pos _ hev]
      unfold stepDetected
      rw [if_pos hev]
      obtain ⟨x, hx⟩ := entryDetected_isSome fs cfg e hev
      simp [hx]
    · rw [List.find?_cons_of_neg _ hev]
      unfold stepDetected
      rw [if_neg hev]
      rfl

theorem foldl_detectStep_mem_of_entry (fs : FS) (cfg : Config) (entries : List String)
    (e : String) (he : e ∈ entries) (k : RunnerType)
    (hstep : ∀ r : DetectionResult, k ∈ (detectStep fs cfg r e).available) :
    k ∈ (entries.foldl (detectStep fs cfg) emptyDetection).available := by
  obtain ⟨s, t, rfl⟩ := List.append_of_mem he
  rw [List.foldl_append, List.foldl_cons]
  exact foldl_detectStep_avail_mono fs cfg t _ k (hstep _)

/-- C4: the `DetectionResult` of `detect_runner` satisfies the invariant:
`detected` equals the specification's scan (the first priority entry with
marker evidence, and for `script` the first candidate with evidence);
whenever present it is a member of `available`; every member of `available`
has marker evidence; and every backend a priority entry scans that has
evidence lands in `available` regardless of its rank. -/
theorem detect_runner_spec (fs : FS) (cfg : Config) :
    ((detect_runner fs cfg).detected = detectedSpec fs cfg) ∧
    (∀ k, (detect_runner fs cfg).detected = some k →
      k ∈ (detect_runner fs cfg).available) ∧
    (∀ k ∈ (detect_runner fs cfg).available, rtEvidence fs cfg k = true) ∧
    (∀ e ∈ cfg.runner_priority, e = "make" → makeEvidence fs = true →
      RunnerType.make ∈ (detect_runner fs cfg).available) ∧
    (∀ e ∈ cfg.runner_priority, e = "just" → justEvidence fs = true →
      RunnerType.just ∈ (detect_runner fs cfg).available) ∧
    (∀ e ∈ cfg.runner_priority, e = "script" →
      ∀ c ∈ cfg.scripts, scriptOk fs c = true →
        RunnerType.script (scriptDisplayPath c) ∈ (detect_runner fs cfg).available) := by
  refine ⟨?_, ?_, ?_, ?_, ?_, ?_⟩
  · show (cfg.runner_priority.foldl (detectStep fs cfg) emptyDetection).detected = _
    rw [foldl_detectStep_detected]
    rfl
  · exact foldl_detectStep_detInv fs cfg cfg.runner_priority emptyDetection
      (by intro k hk; exact absurd hk (by simp [emptyDetection]))
  · exact foldl_detectStep_avail_evidence fs cfg cfg.runner_priority emptyDetection
      (by intro k hk; exact absurd hk (by simp [emptyDetection]))
  · intro e he hmk hev
    subst hmk
    refine foldl_detectStep_mem_of_entry fs cfg _ _ he _ fun r => ?_
    rw [detectStep_make]
    exact check_makefile_adds fs r hev
  · intro e he hjs hev
    subst hjs
    refine foldl_detectStep_mem_of_entry fs cfg _ _ he _ fun r => ?_
    rw [detectStep_just]
    exact check_justfile_adds fs r hev
  · intro e he hsc c hc hok
    subst hsc
    refine foldl_detectStep_mem_of_entry fs cfg _ _ he _ fun r => ?_
    rw [detectStep_script]
    exact check_scripts_adds fs c hok cfg.scripts hc r

end Makefilehub
